import Mathlib

/-!
Verification development for the ozz-animation offline animation optimizer
(`src/animation/offline/animation_optimizer.cc`).

The C++ source is shallowly embedded:
* keyframe times and all channel values use `ℚ` (the source uses IEEE floats;
  the algorithms are arithmetic-generic, so the rational embedding follows the
  source expression by expression);
* the generic `Filter` template is embedded generically over the value type
  `α` and the comparator / interpolator pair, exactly as the C++ template is
  generic over `_RawTrack`, `_Comparator` and `_Lerp`;
* `std::vector` state mutated through pointers (`_joint_specs`, `_lengths`)
  becomes explicit state passing of functions `ℕ → _`;
* external math primitives that live outside the optimizer's translation unit
  (`math::Lerp`, `Compare`, `math::NLerp`, `Length`) are parameters of the
  embedded functions; where a claim needs a concrete instance they are
  modelled from the spec and marked as such.
-/

namespace OzzOpt

/-- A keyframe of one animation channel: a time and a channel-typed value
(`RawAnimation::TranslationKey` and friends). -/
structure Keyframe (α : Type) where
  time : ℚ
  value : α
deriving DecidableEq, Repr

instance {α : Type} [Inhabited α] : Inhabited (Keyframe α) := ⟨⟨0, default⟩⟩

/-- Indexing into a keyframe sequence, `_src[i]` in the source.  All uses in
the embedded algorithms are in bounds, so the default value is never read on
the executions the source performs. -/
def nthKey {α : Type} [Inhabited α] (src : List (Keyframe α)) (i : ℕ) : Keyframe α :=
  src.getD i default

/-- The inner loop of `Filter` (animation_optimizer.cc lines 180-191): tests
whether some key with index in `]last, i]` cannot be reproduced by
interpolating keys `last` and `i + 1`; `break`-on-failure is `List.any`. -/
def innerFails {α : Type} [Inhabited α] (src : List (Keyframe α))
    (cmp : α → α → ℚ → Bool) (lerp : α → α → ℚ → α) (tol : ℚ)
    (last i : ℕ) : Bool :=
  (List.range' (last + 1) (i - last)).any fun j =>
    let left := nthKey src last
    let right := nthKey src (i + 1)
    let test := nthKey src j
    ! cmp (lerp left.value right.value
            ((test.time - left.time) / (right.time - left.time)))
          test.value tol

/-- One iteration of `Filter`'s outer loop (lines 170-193) acting on the
state `(dest, last_src_pushed)`. -/
def filterStep {α : Type} [Inhabited α] (src : List (Keyframe α))
    (cmp : α → α → ℚ → Bool) (lerp : α → α → ℚ → α) (tol : ℚ)
    (st : List (Keyframe α) × ℕ) (i : ℕ) : List (Keyframe α) × ℕ :=
  if i = 0 ∨ i = src.length - 1 then (st.1 ++ [nthKey src i], i)
  else if innerFails src cmp lerp tol st.2 i then (st.1 ++ [nthKey src i], i)
  else st

/-- The keyframe decimation filter `Filter` (animation_optimizer.cc lines
159-195): copies `_src` keys to the result except the ones that can be
interpolated from the retained neighbours. -/
def Filter {α : Type} [Inhabited α] (src : List (Keyframe α))
    (cmp : α → α → ℚ → Bool) (lerp : α → α → ℚ → α) (tol : ℚ) :
    List (Keyframe α) :=
  ((List.range src.length).foldl (filterStep src cmp lerp tol) ([], 0)).1

/-- The same loop at the level of source indices: `keptStep n F` pushes the
index instead of the key, where `F last i` is the inner-loop failure test. -/
def keptStep (n : ℕ) (F : ℕ → ℕ → Bool) (st : List ℕ × ℕ) (i : ℕ) :
    List ℕ × ℕ :=
  if i = 0 ∨ i = n - 1 then (st.1 ++ [i], i)
  else if F st.2 i then (st.1 ++ [i], i) else st

/-- Indices of the keys `Filter` retains. -/
def keptIdx (n : ℕ) (F : ℕ → ℕ → Bool) : List ℕ :=
  ((List.range n).foldl (keptStep n F) ([], 0)).1

/-- Indices of the keys retained by `Filter src cmp lerp tol`. -/
def retainedIdx {α : Type} [Inhabited α] (src : List (Keyframe α))
    (cmp : α → α → ℚ → Bool) (lerp : α → α → ℚ → α) (tol : ℚ) : List ℕ :=
  keptIdx src.length (innerFails src cmp lerp tol)

/-- The interpolation check `Filter`'s inner loop performs for the tested key
`j` against the key pair `(p, q)` (lines 182-186): the comparator accepts the
lerped value at `j`'s normalized time fraction. -/
def keyCheck {α : Type} [Inhabited α] (src : List (Keyframe α))
    (cmp : α → α → ℚ → Bool) (lerp : α → α → ℚ → α) (tol : ℚ)
    (p q j : ℕ) : Prop :=
  cmp (lerp (nthKey src p).value (nthKey src q).value
        (((nthKey src j).time - (nthKey src p).time) /
         ((nthKey src q).time - (nthKey src p).time)))
      (nthKey src j).value tol = true

/-- A 3-vector channel value (`math::Float3`). -/
structure Float3 where
  x : ℚ
  y : ℚ
  z : ℚ
deriving DecidableEq, Repr

instance : Inhabited Float3 := ⟨⟨0, 0, 0⟩⟩

/-- A quaternion channel value (`math::Quaternion`). -/
structure Quaternion where
  x : ℚ
  y : ℚ
  z : ℚ
  w : ℚ
deriving DecidableEq, Repr

instance : Inhabited Quaternion := ⟨⟨0, 0, 0, 1⟩⟩

/-- Quaternion negation `-_b` used by `LerpRotation` (line 226). -/
def quatNeg (q : Quaternion) : Quaternion := ⟨-q.x, -q.y, -q.z, -q.w⟩

/-- Translation filtering comparator (lines 198-202); the external
`Compare(Float3, Float3, float)` is a parameter. -/
def CompareTranslation (cmp3 : Float3 → Float3 → ℚ → Bool)
    (a b : Float3) (tol : ℚ) : Bool :=
  cmp3 a b tol

/-- Translation interpolation method (lines 206-210); the external
`math::Lerp` is a parameter. -/
def LerpTranslation (lerp3 : Float3 → Float3 → ℚ → Float3)
    (a b : Float3) (alpha : ℚ) : Float3 :=
  lerp3 a b alpha

/-- Rotation filtering comparator (lines 213-217); the external
`Compare(Quaternion, Quaternion, float)` is a parameter. -/
def CompareRotation (cmpQ : Quaternion → Quaternion → ℚ → Bool)
    (a b : Quaternion) (tol : ℚ) : Bool :=
  cmpQ a b tol

/-- Rotation interpolation method (lines 221-229): sign-corrected normalized
lerp; the external `math::NLerp` is a parameter. -/
def LerpRotation (nlerp : Quaternion → Quaternion → ℚ → Quaternion)
    (a b : Quaternion) (alpha : ℚ) : Quaternion :=
  if a.x * b.x + a.y * b.y + a.z * b.z + a.w * b.w < 0 then
    nlerp a (quatNeg b) alpha
  else nlerp a b alpha

/-- Scale filtering comparator (lines 232-236). -/
def CompareScale (cmp3 : Float3 → Float3 → ℚ → Bool)
    (a b : Float3) (tol : ℚ) : Bool :=
  cmp3 a b tol

/-- Scale interpolation method (lines 240-244). -/
def LerpScale (lerp3 : Float3 → Float3 → ℚ → Float3)
    (a b : Float3) (alpha : ℚ) : Float3 :=
  lerp3 a b alpha

/-- Modelled from the spec: the external `math::Lerp` on `Float3`
("translation and scale interpolate by linear blend of vector components");
the math primitives live outside `src/`. -/
def lerpFloat3 (a b : Float3) (alpha : ℚ) : Float3 :=
  ⟨a.x + (b.x - a.x) * alpha, a.y + (b.y - a.y) * alpha, a.z + (b.z - a.z) * alpha⟩

/-- Modelled from the spec: the external `Compare` on `Float3` ("for
translation and scale, compared as absolute per-component or magnitude
difference"); the per-component absolute difference reading is used.  The
math primitives live outside `src/`. -/
def compareFloat3 (a b : Float3) (tol : ℚ) : Bool :=
  decide (|a.x - b.x| ≤ tol) && decide (|a.y - b.y| ≤ tol) && decide (|a.z - b.z| ≤ tol)

/-- One joint's three channel tracks (`RawAnimation::JointTrack`). -/
structure JointTrack where
  translations : List (Keyframe Float3)
  rotations : List (Keyframe Quaternion)
  scales : List (Keyframe Float3)
deriving DecidableEq

instance : Inhabited JointTrack := ⟨⟨[], [], []⟩⟩

/-- An offline animation (`RawAnimation`): a duration and one track per
joint. -/
structure RawAnimation where
  duration : ℚ
  tracks : List JointTrack
deriving DecidableEq

/-- `RawAnimation::num_tracks()`. -/
def RawAnimation.num_tracks (a : RawAnimation) : ℕ := a.tracks.length

/-- Adjacent keyframe times are strictly increasing. -/
def strictlyOrdered {α : Type} (l : List (Keyframe α)) : Bool :=
  (l.zip l.tail).all fun p => decide (p.1.time < p.2.time)

/-- Modelled from the spec: `RawAnimation::Validate` (defined in
`raw_animation.cc`, which is outside `src/`): the animation is internally
valid iff every channel's keyframe times are strictly increasing
("fails if rawAnimation is internally invalid (non-increasing keyframe
times)"). -/
def RawAnimation.Validate (a : RawAnimation) : Bool :=
  a.tracks.all fun t =>
    strictlyOrdered t.translations && strictlyOrdered t.rotations &&
      strictlyOrdered t.scales

/-- Modelled from the spec: the default-constructed `RawAnimation` that a
failed optimize leaves in `*_output` ("a failed optimize leaves the compiled
animation at its prior/default value"); `raw_animation.h` is outside
`src/`. -/
def defaultRawAnimation : RawAnimation := ⟨1, []⟩

/-- `Skeleton::JointProperties`: parent index (`none` models
`Skeleton::kNoParentIndex`) and leaf flag. -/
structure JointProperties where
  parent : Option ℕ
  is_leaf : Bool
deriving DecidableEq

/-- A runtime skeleton, reduced to the joint properties array that the
optimizer reads. -/
structure Skeleton where
  joints : List JointProperties
deriving DecidableEq

/-- `Skeleton::num_joints()`. -/
def Skeleton.num_joints (sk : Skeleton) : ℕ := sk.joints.length

/-- `Skeleton::joint_properties()` indexing; out of range reads (which the
source never performs on well-formed input) give a parentless non-leaf. -/
def Skeleton.jointProperties (sk : Skeleton) (i : ℕ) : JointProperties :=
  sk.joints.getD i ⟨none, false⟩

/-- Per-joint maximum translation length and scale component
(`struct JointSpec`, lines 56-59). -/
structure JointSpec where
  length : ℚ
  scale : ℚ
deriving DecidableEq

/-- Joint `i` lies in the subtree rooted at `j`: the parent chain from `i`
reaches `j`.  The chain is forced downward (`p < i`), which every
well-formed skeleton satisfies. -/
def inSub (sk : Skeleton) (j i : ℕ) : Bool :=
  if i = j then true
  else
    match (sk.jointProperties i).parent with
    | some p => if h : p < i then inSub sk j p else false
    | none => false
termination_by i
decreasing_by exact h

/-- All children of joint `i`, in index order. -/
def childrenOf (sk : Skeleton) (i : ℕ) : List ℕ :=
  (List.range sk.num_joints).filter fun d => (sk.jointProperties d).parent == some i

/-- The children of `j` with index at least `c`, in index order. -/
def childrenFrom (sk : Skeleton) (j c : ℕ) : List ℕ :=
  (List.range' c (sk.num_joints - c)).filter fun d =>
    (sk.jointProperties d).parent == some j

/-- The first-child scan of `Iter` (lines 84-89): starting at `c`, skip
joints whose parent is not `j`. -/
def firstChildFrom (sk : Skeleton) (j c : ℕ) : ℕ :=
  if h : c < sk.num_joints ∧ (sk.jointProperties c).parent ≠ some j then
    firstChildFrom sk j (c + 1)
  else c
termination_by sk.num_joints - c
decreasing_by
  obtain ⟨h1, h2⟩ := h
  omega

/-- The parent-scale application of `Iter` (lines 72-77): when joint `j` has
a parent, its local length and scale are multiplied by the parent's current
accumulated scale in `_joint_specs`. -/
def scaleStep (sk : Skeleton) (j : ℕ) (specs : ℕ → JointSpec) : ℕ → JointSpec :=
  match (sk.jointProperties j).parent with
  | some p =>
      Function.update specs j
        ⟨(specs j).length * (specs p).scale, (specs j).scale * (specs p).scale⟩
  | none => specs

mutual

/-- The bone-length traversal `Iter` (animation_optimizer.cc lines 65-107):
applies the parent's accumulated scale to joint `j` (`scaleStep`), then
either zeroes the length of a leaf or folds the children's accumulated
lengths through the child loop, and returns the accumulated length for `j`.
The mutated `_joint_specs` / `_lengths` vectors are passed as explicit
state; an out-of-range `_joint` (undefined behaviour in the C++) returns the
state unchanged. -/
def Iter (sk : Skeleton) (j : ℕ) (specs : ℕ → JointSpec) (lengths : ℕ → ℚ) :
    ℚ × (ℕ → JointSpec) × (ℕ → ℚ) :=
  if hj : j < sk.num_joints then
    let specs1 := scaleStep sk j specs
    if (sk.jointProperties j).is_leaf then
      let lengths1 := Function.update lengths j 0
      (lengths1 j + (specs1 j).length, specs1, lengths1)
    else
      let r := iterChildren sk j (firstChildFrom sk j (j + 1)) specs1 lengths
      (r.2 j + (r.1 j).length, r.1, r.2)
  else (lengths j + (specs j).length, specs, lengths)
termination_by 2 * (sk.num_joints - j)
decreasing_by
  have hfc : ∀ c : ℕ, sk.num_joints - c ≤ sk.num_joints → c ≤ firstChildFrom sk j c := by
    have H : ∀ μ c, sk.num_joints - c ≤ μ → c ≤ firstChildFrom sk j c := by
      intro μ
      induction μ with
      | zero =>
          intro c hμ
          unfold firstChildFrom
          split
          · next h => exact absurd h.1 (by omega)
          · exact le_rfl
      | succ μ ih =>
          intro c hμ
          unfold firstChildFrom
          split
          · next h =>
              have h1 := h.1
              exact le_trans (by omega) (ih (c + 1) (by omega))
          · exact le_rfl
    intro c _
    exact H (sk.num_joints - c) c le_rfl
  have := hfc (j + 1) (by omega)
  omega

/-- The child loop of `Iter` (lines 93-102): while `c` is a child of `j`,
recurse into `c` and fold its accumulated length into `_lengths[j]`. -/
def iterChildren (sk : Skeleton) (j c : ℕ) (specs : ℕ → JointSpec)
    (lengths : ℕ → ℚ) : (ℕ → JointSpec) × (ℕ → ℚ) :=
  if hc : c < sk.num_joints ∧ (sk.jointProperties c).parent = some j then
    let r := Iter sk c specs lengths
    iterChildren sk j (c + 1) r.2.1 (Function.update r.2.2 j (max (r.2.2 j) r.1))
  else (specs, lengths)
termination_by 2 * (sk.num_joints - c) + 1
decreasing_by
  · omega
  · have := hc.1
    omega

end

/-- The root loop of `BuildBoneLength` (lines 147-153): the leading run of
parentless joints. -/
def rootsFrom (sk : Skeleton) (r : ℕ) : List ℕ :=
  if h : r < sk.num_joints ∧ (sk.jointProperties r).parent = none then
    r :: rootsFrom sk (r + 1)
  else []
termination_by sk.num_joints - r
decreasing_by
  obtain ⟨h1, h2⟩ := h
  omega

/-- The maximum translation vector length of a track (lines 127-131); the
external `Length(Float3)` is a parameter. -/
def trackMaxLength (len3 : Float3 → ℚ) (t : JointTrack) : ℚ :=
  t.translations.foldl (fun m k => max m (len3 k.value)) 0

/-- The maximum scale component of a track (lines 133-143): the fold starts
at `0`, takes raw (signed) components, and defaults to `1` for an empty
scale track. -/
def trackMaxScale (t : JointTrack) : ℚ :=
  if t.scales.length ≠ 0 then
    t.scales.foldl (fun m k => max (max (max m k.value.x) k.value.y) k.value.z) 0
  else 1

/-- Translation of the claim's own words for the scale half of the local
pair, used to compare against the source's `trackMaxScale`: the maximum
absolute component over the scale keyframe values, defaulting to `1` when
there are none. -/
def claimedTrackScale (t : JointTrack) : ℚ :=
  if t.scales.length ≠ 0 then
    t.scales.foldl (fun m k => max (max (max m |k.value.x|) |k.value.y|) |k.value.z|) 0
  else 1

/-- `BuildBoneLength` (lines 109-156): per-track local length/scale pairs,
then the root-by-root `Iter` traversal; returns the final `_lengths`
state. -/
def buildBoneLength (len3 : Float3 → ℚ) (anim : RawAnimation) (sk : Skeleton) :
    ℕ → ℚ :=
  if anim.tracks.length = 0 then fun _ => 0
  else
    let joint_specs : ℕ → JointSpec := fun i =>
      ⟨trackMaxLength len3 (anim.tracks.getD i default),
       trackMaxScale (anim.tracks.getD i default)⟩
    let lengths0 : ℕ → ℚ := fun _ => 0
    ((rootsFrom sk 0).foldl (fun st root => (Iter sk root st.1 st.2).2)
      (joint_specs, lengths0)).2

/-- The optimizer's tolerance configuration (`AnimationOptimizer`,
animation_optimizer.h). -/
structure AnimationOptimizer where
  translation_tolerance : ℚ
  rotation_tolerance : ℚ
  scale_tolerance : ℚ

/-- `AnimationOptimizer::operator()` (lines 248-290) for a non-null output:
resets the output, validates the animation and the track/joint count match,
builds the (unused) bone lengths, and filters every channel of every track
with the configured global tolerances.  The external math functions are
parameters. -/
def AnimationOptimizer.run (opt : AnimationOptimizer)
    (cmp3 : Float3 → Float3 → ℚ → Bool) (cmpQ : Quaternion → Quaternion → ℚ → Bool)
    (lerp3 : Float3 → Float3 → ℚ → Float3)
    (nlerp : Quaternion → Quaternion → ℚ → Quaternion)
    (len3 : Float3 → ℚ) (input : RawAnimation) (sk : Skeleton) :
    Bool × RawAnimation :=
  if input.Validate = false then (false, defaultRawAnimation)
  else if input.num_tracks ≠ sk.num_joints then (false, defaultRawAnimation)
  else
    let _lengths := buildBoneLength len3 input sk
    (true,
      { duration := input.duration
        tracks := input.tracks.map fun t =>
          { translations := Filter t.translations (CompareTranslation cmp3)
              (LerpTranslation lerp3) opt.translation_tolerance
            rotations := Filter t.rotations (CompareRotation cmpQ)
              (LerpRotation nlerp) opt.rotation_tolerance
            scales := Filter t.scales (CompareScale cmp3)
              (LerpScale lerp3) opt.scale_tolerance } })

/-- Structural well-formedness of a skeleton forest, as the traversal
requires it: parents precede children, each joint's children occupy one
contiguous index interval, and the leaf flag is set exactly on childless
joints. -/
structure WellFormed (sk : Skeleton) : Prop where
  parent_lt : ∀ i p, (sk.jointProperties i).parent = some p → p < i
  children_interval : ∀ j a b d, (sk.jointProperties a).parent = some j →
    (sk.jointProperties d).parent = some j → a ≤ b → b ≤ d →
    (sk.jointProperties b).parent = some j
  leaf_iff : ∀ j, j < sk.num_joints →
    ((sk.jointProperties j).is_leaf = true ↔
      ∀ d, (sk.jointProperties d).parent ≠ some j)

/-- The parent's accumulated scale that `Iter` applies to joint `j`
(lines 73-77), read from the given `_joint_specs` state; a parentless joint
is unscaled. -/
def pscaleOf (sk : Skeleton) (specs : ℕ → JointSpec) (j : ℕ) : ℚ :=
  match (sk.jointProperties j).parent with
  | some p => (specs p).scale
  | none => 1

/-- Joint `i` lies in the subtree of one of `j`'s children with index at
least `c` (the part of `j`'s subtree the child loop still has to visit). -/
def RemSub (sk : Skeleton) (j c : ℕ) (i : ℕ) : Prop :=
  ∃ d, c ≤ d ∧ (sk.jointProperties d).parent = some j ∧ inSub sk d i = true

/-- Folding the children's accumulated lengths into a running maximum
(line 101). -/
def reachFold (lg : ℕ → ℚ) (sp : ℕ → JointSpec) (z : ℚ) (l : List ℕ) : ℚ :=
  l.foldl (fun a d => max a (lg d + (sp d).length)) z

/-- Postcondition of `Iter sk j`: outside `j`'s subtree the state is
untouched; `j` itself and every descendant get the parent-scaled spec; the
length table satisfies the leaf / max-over-children recurrence on the
subtree; the returned value is `j`'s accumulated length. -/
def IterConc (sk : Skeleton) (j : ℕ) (specs : ℕ → JointSpec) (lengths : ℕ → ℚ)
    (r : ℚ × (ℕ → JointSpec) × (ℕ → ℚ)) : Prop :=
  (∀ i, inSub sk j i = false → r.2.1 i = specs i ∧ r.2.2 i = lengths i)
  ∧ r.2.1 j = ⟨(specs j).length * pscaleOf sk specs j,
      (specs j).scale * pscaleOf sk specs j⟩
  ∧ (∀ i p, inSub sk j i = true → i ≠ j → (sk.jointProperties i).parent = some p →
      r.2.1 i = ⟨(specs i).length * (r.2.1 p).scale, (specs i).scale * (r.2.1 p).scale⟩)
  ∧ (∀ i, inSub sk j i = true →
      r.2.2 i = if (sk.jointProperties i).is_leaf then 0
        else reachFold r.2.2 r.2.1 0 (childrenOf sk i))
  ∧ r.1 = r.2.2 j + (r.2.1 j).length

/-- Postcondition of the child loop `iterChildren sk j c`: outside the
remaining subtrees (and `j`'s length slot) the state is untouched; `j`'s
length slot folds the remaining children's accumulated lengths into its
previous value; the scale and length recurrences hold on the remaining
subtrees. -/
def ChildConc (sk : Skeleton) (j c : ℕ) (specs : ℕ → JointSpec) (lengths : ℕ → ℚ)
    (r : (ℕ → JointSpec) × (ℕ → ℚ)) : Prop :=
  (∀ i, ¬ RemSub sk j c i → i ≠ j → r.1 i = specs i ∧ r.2 i = lengths i)
  ∧ r.1 j = specs j
  ∧ r.2 j = reachFold r.2 r.1 (lengths j) (childrenFrom sk j c)
  ∧ (∀ i p, RemSub sk j c i → (sk.jointProperties i).parent = some p →
      r.1 i = ⟨(specs i).length * (r.1 p).scale, (specs i).scale * (r.1 p).scale⟩)
  ∧ (∀ i, RemSub sk j c i →
      r.2 i = if (sk.jointProperties i).is_leaf then 0
        else reachFold r.2 r.1 0 (childrenOf sk i))

/-- Concrete test data: the spec's collinear, evenly timed translation
track `(0,(0,0,0)), (1/2,(1,0,0)), (1,(2,0,0))`. -/
def colTrack : List (Keyframe Float3) :=
  [⟨0, ⟨0, 0, 0⟩⟩, ⟨1/2, ⟨1, 0, 0⟩⟩, ⟨1, ⟨2, 0, 0⟩⟩]

/-- Concrete test data: a scalar track whose middle key spikes away from
its neighbours. -/
def spikeTrack : List (Keyframe ℚ) := [⟨0, 0⟩, ⟨1/2, 10⟩, ⟨1, 0⟩]

/-- Concrete test data: a scalar track on which `Filter` is not
idempotent. -/
def zigzagTrack : List (Keyframe ℚ) := [⟨0, 0⟩, ⟨1, 0⟩, ⟨2, 5/2⟩, ⟨3, 3⟩]

/-- A scalar absolute-difference comparator, a concrete instance of the
generic comparator parameter. -/
def absCmpQ : ℚ → ℚ → ℚ → Bool := fun a b tol => decide (|a - b| ≤ tol)

/-- Scalar linear interpolation, a concrete instance of the generic
interpolator parameter. -/
def lerpQ : ℚ → ℚ → ℚ → ℚ := fun a b alpha => a + (b - a) * alpha

/-- Concrete test data: a two-joint skeleton, a root whose only child is a
leaf. -/
def chainSkeleton : Skeleton := ⟨[⟨none, false⟩, ⟨some 0, true⟩]⟩

/-- Concrete quaternion comparator instance. -/
def trivialCmpQ : Quaternion → Quaternion → ℚ → Bool := fun _ _ _ => true

/-- Concrete quaternion interpolator instance. -/
def trivialNlerp : Quaternion → Quaternion → ℚ → Quaternion := fun a _ _ => a

/-- Concrete vector-length instance. -/
def zeroLen3 : Float3 → ℚ := fun _ => 0

/-- The default quality-favouring tolerances (constructor, lines 48-52),
with `0.1 * pi / 180` replaced by a rational stand-in. -/
def defaultOptimizer : AnimationOptimizer := ⟨1/1000, 1/1000, 1/1000⟩

theorem keptFrom_succ (n : ℕ) (F : ℕ → ℕ → Bool) (k : ℕ) :
    (List.range (k + 1)).foldl (keptStep n F) ([], 0)
      = keptStep n F ((List.range k).foldl (keptStep n F) ([], 0)) k := by
  rw [List.range_succ, List.foldl_append, List.foldl_cons, List.foldl_nil]

theorem filterFrom_succ {α : Type} [Inhabited α] (src : List (Keyframe α))
    (cmp : α → α → ℚ → Bool) (lerp : α → α → ℚ → α) (tol : ℚ) (k : ℕ) :
    (List.range (k + 1)).foldl (filterStep src cmp lerp tol) ([], 0)
      = filterStep src cmp lerp tol
          ((List.range k).foldl (filterStep src cmp lerp tol) ([], 0)) k := by
  rw [List.range_succ, List.foldl_append, List.foldl_cons, List.foldl_nil]

/-- The key-level fold and the index-level fold run in lockstep: the
destination is the retained-index list mapped through `nthKey`. -/
theorem filterFold_eq_keptFold {α : Type} [Inhabited α] (src : List (Keyframe α))
    (cmp : α → α → ℚ → Bool) (lerp : α → α → ℚ → α) (tol : ℚ) :
    ∀ k : ℕ,
      (List.range k).foldl (filterStep src cmp lerp tol) ([], 0)
        = (((List.range k).foldl (keptStep src.length (innerFails src cmp lerp tol)) ([], 0)).1.map
              (nthKey src),
            ((List.range k).foldl (keptStep src.length (innerFails src cmp lerp tol)) ([], 0)).2) := by
  intro k
  induction k with
  | zero => simp
  | succ k ih =>
      rw [keptFrom_succ, filterFrom_succ, ih]
      set st := (List.range k).foldl (keptStep src.length (innerFails src cmp lerp tol)) ([], 0)
      unfold filterStep keptStep
      by_cases h0 : k = 0 ∨ k = src.length - 1
      · simp [h0]
      · by_cases hF : innerFails src cmp lerp tol st.2 k
        · simp [h0, hF]
        · simp [h0, hF]

/-- `Filter` is `retainedIdx` mapped through the source sequence. -/
theorem filter_eq_map_retained {α : Type} [Inhabited α] (src : List (Keyframe α))
    (cmp : α → α → ℚ → Bool) (lerp : α → α → ℚ → α) (tol : ℚ) :
    Filter src cmp lerp tol = (retainedIdx src cmp lerp tol).map (nthKey src) := by
  unfold Filter retainedIdx keptIdx
  rw [filterFold_eq_keptFold]

/-- Invariant of the outer loop of `Filter`, at the level of retained indices.
`G p q j` is the per-key interpolation check against the key pair `(p, q)`;
the hypothesis `HFG` says that a failed inner-loop test `F l i = false`
certifies `G l (i+1) j` for every tested `j`.  After processing the first `k`
indices the state `(acc, last)` satisfies: `acc` starts at index `0`, ends at
`last < k`, is strictly increasing with every adjacent pair `(p, q)`
satisfying `G p q` on the indices strictly between them, has entries `< k` and
length `≤ k`, and the pending keys in `]last, k[` satisfy `G last k`. -/
theorem keptFold_invariant (n : ℕ) (F : ℕ → ℕ → Bool) (G : ℕ → ℕ → ℕ → Prop)
    (HFG : ∀ l i, l < i → F l i = false → ∀ j, l < j → j ≤ i → G l (i + 1) j) :
    ∀ k, 1 ≤ k → k ≤ n →
      (((List.range k).foldl (keptStep n F) ([], 0)).1.head? = some 0)
      ∧ (((List.range k).foldl (keptStep n F) ([], 0)).1.getLast?
          = some ((List.range k).foldl (keptStep n F) ([], 0)).2)
      ∧ ((List.range k).foldl (keptStep n F) ([], 0)).2 < k
      ∧ List.Chain' (fun p q => p < q ∧ ∀ j, p < j → j < q → G p q j)
          ((List.range k).foldl (keptStep n F) ([], 0)).1
      ∧ (∀ m ∈ ((List.range k).foldl (keptStep n F) ([], 0)).1, m < k)
      ∧ ((List.range k).foldl (keptStep n F) ([], 0)).1.length ≤ k
      ∧ (∀ j, ((List.range k).foldl (keptStep n F) ([], 0)).2 < j → j < k →
          G ((List.range k).foldl (keptStep n F) ([], 0)).2 k j) := by
  intro k
  induction k with
  | zero => omega
  | succ k ih =>
      intro _ hkn
      by_cases hk1 : k = 0
      · subst hk1
        have : (List.range 1).foldl (keptStep n F) ([], 0) = ([0], 0) := by
          simp [List.range_succ, keptStep]
        rw [this]
        refine ⟨rfl, rfl, Nat.zero_lt_one, List.chain'_singleton _, ?_, ?_, ?_⟩
        · intro m hm; simp at hm; omega
        · simp
        · intro j h0 h1; omega
      · have hk : 1 ≤ k := Nat.one_le_iff_ne_zero.mpr hk1
        obtain ⟨ih1, ih2, ih3, ih4, ih5, ih6, ih7⟩ := ih hk (by omega)
        set st := (List.range k).foldl (keptStep n F) ([], 0) with hst
        rw [keptFrom_succ]
        have hacc_ne : st.1 ≠ [] := by
          intro h; rw [h] at ih1; exact (Option.some_ne_none 0 ih1.symm).elim
        -- the two possible outcomes of step k
        have push_case :
            (((st.1 ++ [k]).head? = some 0)
            ∧ ((st.1 ++ [k]).getLast? = some k)
            ∧ k < k + 1
            ∧ List.Chain' (fun p q => p < q ∧ ∀ j, p < j → j < q → G p q j) (st.1 ++ [k])
            ∧ (∀ m ∈ st.1 ++ [k], m < k + 1)
            ∧ (st.1 ++ [k]).length ≤ k + 1
            ∧ (∀ j, k < j → j < k + 1 → G k (k + 1) j)) := by
          refine ⟨?_, ?_, Nat.lt_succ_self k, ?_, ?_, ?_, ?_⟩
          · rw [List.head?_append_of_ne_nil _ hacc_ne]; exact ih1
          · rw [List.getLast?_concat]
          · rw [List.chain'_append]
            refine ⟨ih4, List.chain'_singleton _, ?_⟩
            intro x hx y hy
            rw [ih2, Option.mem_some_iff] at hx
            simp only [List.head?_cons, Option.mem_some_iff] at hy
            subst hx; subst hy
            exact ⟨ih3, fun j h1 h2 => ih7 j h1 h2⟩
          · intro m hm
            rcases List.mem_append.1 hm with h | h
            · exact Nat.lt_succ_of_lt (ih5 m h)
            · simp at h; omega
          · rw [List.length_append, List.length_singleton]; omega
          · intro j h1 h2; omega
        by_cases hcond : k = 0 ∨ k = n - 1
        · have : keptStep n F st k = (st.1 ++ [k], k) := by
            unfold keptStep; rw [if_pos hcond]
          rw [this]; exact push_case
        · by_cases hF : F st.2 k = true
          · have : keptStep n F st k = (st.1 ++ [k], k) := by
              unfold keptStep; rw [if_neg hcond, if_pos hF]
            rw [this]; exact push_case
          · have : keptStep n F st k = st := by
              unfold keptStep
              rw [if_neg hcond, if_neg (by rw [Bool.not_eq_true] at hF ⊢; exact hF)]
            rw [this]
            refine ⟨ih1, ih2, by omega, ih4, fun m hm => Nat.lt_succ_of_lt (ih5 m hm),
              by omega, ?_⟩
            intro j h1 h2
            exact HFG st.2 k ih3 (Bool.not_eq_true _ ▸ hF) j h1 (by omega)

/-- Bundle of the invariant at the end of the loop, for a nonempty source:
the retained indices start at `0`, end at `n - 1`, are strictly increasing
with the interpolation check holding between adjacent pairs, stay below `n`
and number at most `n`. -/
theorem keptIdx_spec (n : ℕ) (F : ℕ → ℕ → Bool) (G : ℕ → ℕ → ℕ → Prop)
    (HFG : ∀ l i, l < i → F l i = false → ∀ j, l < j → j ≤ i → G l (i + 1) j)
    (hn : 1 ≤ n) :
    (keptIdx n F).head? = some 0
    ∧ (keptIdx n F).getLast? = some (n - 1)
    ∧ List.Chain' (fun p q => p < q ∧ ∀ j, p < j → j < q → G p q j) (keptIdx n F)
    ∧ (∀ m ∈ keptIdx n F, m < n)
    ∧ (keptIdx n F).length ≤ n := by
  obtain ⟨h1, h2, h3, h4, h5, h6, h7⟩ := keptFold_invariant n F G HFG n hn le_rfl
  have hlast : ((List.range n).foldl (keptStep n F) ([], 0)).2 = n - 1 := by
    obtain ⟨m, hm⟩ : ∃ m, n = m + 1 := ⟨n - 1, by omega⟩
    subst hm
    rw [keptFrom_succ]
    by_cases hm0 : m = 0
    · subst hm0; simp [keptStep]
    · unfold keptStep
      rw [if_pos (Or.inr (by omega))]
      simp
  unfold keptIdx
  exact ⟨h1, hlast ▸ h2, h4, h5, h6⟩

/-- The empty source yields no retained indices. -/
theorem keptIdx_zero (F : ℕ → ℕ → Bool) : keptIdx 0 F = [] := by
  simp [keptIdx]

/-- Indexing agrees with `head?` on a nonempty list. -/
theorem nthKey_zero_of_head? {α : Type} [Inhabited α] {src : List (Keyframe α)}
    {a : Keyframe α} (h : src.head? = some a) : nthKey src 0 = a := by
  cases src with
  | nil => simp at h
  | cons x xs => simp only [List.head?_cons, Option.some_inj] at h; simpa [nthKey]

/-- Indexing agrees with `getLast?` on a nonempty list. -/
theorem nthKey_last_of_getLast? {α : Type} [Inhabited α] {src : List (Keyframe α)}
    (h : src ≠ []) : src.getLast? = some (nthKey src (src.length - 1)) := by
  rw [List.getLast?_eq_getElem?, nthKey, List.getD_eq_getElem?_getD]
  have hlt : src.length - 1 < src.length := by
    have := List.length_pos.2 h; omega
  rw [List.getElem?_eq_getElem hlt]
  rfl

/-- In-bounds `nthKey` is list indexing. -/
theorem nthKey_eq_getElem {α : Type} [Inhabited α] {src : List (Keyframe α)}
    {i : ℕ} (h : i < src.length) : nthKey src i = src[i] := by
  rw [nthKey, List.getD_eq_getElem?_getD, List.getElem?_eq_getElem h]; rfl

/-- `Filter` never lengthens the sequence (the assertion on line 194). -/
theorem filter_length_le {α : Type} [Inhabited α] (src : List (Keyframe α))
    (cmp : α → α → ℚ → Bool) (lerp : α → α → ℚ → α) (tol : ℚ) :
    (Filter src cmp lerp tol).length ≤ src.length := by
  rw [filter_eq_map_retained, List.length_map]
  unfold retainedIdx
  rcases Nat.eq_zero_or_pos src.length with h | h
  · rw [h, keptIdx_zero]; simp
  · exact (keptIdx_spec src.length (innerFails src cmp lerp tol) (fun _ _ _ => True)
      (fun _ _ _ _ _ _ _ => trivial) h).2.2.2.2

/-- `Filter` keeps the first key. -/
theorem filter_head? {α : Type} [Inhabited α] (src : List (Keyframe α))
    (cmp : α → α → ℚ → Bool) (lerp : α → α → ℚ → α) (tol : ℚ) :
    (Filter src cmp lerp tol).head? = src.head? := by
  rw [filter_eq_map_retained, List.head?_map]
  unfold retainedIdx
  cases src with
  | nil => rfl
  | cons x xs =>
      rw [(keptIdx_spec (x :: xs).length (innerFails (x :: xs) cmp lerp tol)
        (fun _ _ _ => True) (fun _ _ _ _ _ _ _ => trivial) (by simp)).1]
      simp [nthKey]

/-- `Filter` keeps the last key. -/
theorem filter_getLast? {α : Type} [Inhabited α] (src : List (Keyframe α))
    (cmp : α → α → ℚ → Bool) (lerp : α → α → ℚ → α) (tol : ℚ) :
    (Filter src cmp lerp tol).getLast? = src.getLast? := by
  rw [filter_eq_map_retained, List.getLast?_map]
  unfold retainedIdx
  rcases eq_or_ne src [] with h | h
  · subst h; rfl
  · have hn : 1 ≤ src.length := List.length_pos.2 h
    rw [(keptIdx_spec src.length (innerFails src cmp lerp tol)
      (fun _ _ _ => True) (fun _ _ _ _ _ _ _ => trivial) hn).2.1,
      nthKey_last_of_getLast? h]
    rfl

/-- `Filter` yields the empty sequence exactly on the empty input. -/
theorem filter_eq_nil_iff {α : Type} [Inhabited α] (src : List (Keyframe α))
    (cmp : α → α → ℚ → Bool) (lerp : α → α → ℚ → α) (tol : ℚ) :
    Filter src cmp lerp tol = [] ↔ src = [] := by
  constructor
  · intro h
    by_contra hne
    have := filter_head? src cmp lerp tol
    rw [h] at this
    cases src with
    | nil => exact hne rfl
    | cons x xs => simp at this
  · intro h; subst h; rfl

theorem inSub_self (sk : Skeleton) (j : ℕ) : inSub sk j j = true := by
  unfold inSub
  simp

theorem inSub_unfold (sk : Skeleton) (j i p : ℕ)
    (hp : (sk.jointProperties i).parent = some p) (hne : i ≠ j) :
    inSub sk j i = if _h : p < i then inSub sk j p else false := by
  conv_lhs => unfold inSub
  rw [if_neg hne, hp]

theorem inSub_none (sk : Skeleton) (j i : ℕ)
    (hp : (sk.jointProperties i).parent = none) (hne : i ≠ j) :
    inSub sk j i = false := by
  conv_lhs => unfold inSub
  rw [if_neg hne, hp]

theorem inSub_le (sk : Skeleton) (j : ℕ) : ∀ i, inSub sk j i = true → j ≤ i := by
  intro i
  induction i using Nat.strong_induction_on with
  | _ i ih =>
      intro h
      by_cases hij : i = j
      · omega
      · cases hp : (sk.jointProperties i).parent with
        | none => rw [inSub_none sk j i hp hij] at h; exact absurd h (by simp)
        | some p =>
            rw [inSub_unfold sk j i p hp hij] at h
            by_cases hpi : p < i
            · rw [dif_pos hpi] at h
              exact le_trans (ih p hpi h) (le_of_lt hpi)
            · rw [dif_neg hpi] at h; exact absurd h (by simp)

theorem inSub_step (sk : Skeleton) {j d : ℕ}
    (hp : (sk.jointProperties d).parent = some j) (hjd : j < d) :
    inSub sk j d = true := by
  rw [inSub_unfold sk j d j hp (by omega), dif_pos hjd]
  exact inSub_self sk j

theorem inSub_parent_of_ne (sk : Skeleton) {j i : ℕ} (h : inSub sk j i = true)
    (hne : i ≠ j) :
    ∃ p, (sk.jointProperties i).parent = some p ∧ p < i ∧ inSub sk j p = true := by
  cases hp : (sk.jointProperties i).parent with
  | none => rw [inSub_none sk j i hp hne] at h; exact absurd h (by simp)
  | some p =>
      rw [inSub_unfold sk j i p hp hne] at h
      by_cases hpi : p < i
      · rw [dif_pos hpi] at h
        exact ⟨p, rfl, hpi, h⟩
      · rw [dif_neg hpi] at h; exact absurd h (by simp)

theorem inSub_trans (sk : Skeleton) {a b : ℕ} : ∀ i, inSub sk b i = true →
    inSub sk a b = true → inSub sk a i = true := by
  intro i
  induction i using Nat.strong_induction_on with
  | _ i ih =>
      intro h1 h2
      by_cases hib : i = b
      · subst hib; exact h2
      · obtain ⟨p, hp, hpi, hsub⟩ := inSub_parent_of_ne sk h1 hib
        have hres := ih p hpi hsub h2
        by_cases hia : i = a
        · subst hia; exact inSub_self sk i
        · rw [inSub_unfold sk a i p hp hia, dif_pos hpi]
          exact hres

theorem inSub_elim (sk : Skeleton) {j : ℕ} : ∀ i, inSub sk j i = true → i ≠ j →
    ∃ d, (sk.jointProperties d).parent = some j ∧ j < d ∧ inSub sk d i = true := by
  intro i
  induction i using Nat.strong_induction_on with
  | _ i ih =>
      intro h hne
      obtain ⟨p, hp, hpi, hsub⟩ := inSub_parent_of_ne sk h hne
      by_cases hpj : p = j
      · subst hpj
        exact ⟨i, hp, hpi, inSub_self sk i⟩
      · obtain ⟨d, hd1, hd2, hd3⟩ := ih p hpi hsub hpj
        refine ⟨d, hd1, hd2, ?_⟩
        have hid : i ≠ d := by
          have := inSub_le sk d p hd3
          omega
        rw [inSub_unfold sk d i p hp hid, dif_pos hpi]
        exact hd3

theorem inSub_comparable (sk : Skeleton) {a b : ℕ} : ∀ i, inSub sk a i = true →
    inSub sk b i = true → inSub sk a b = true ∨ inSub sk b a = true := by
  intro i
  induction i using Nat.strong_induction_on with
  | _ i ih =>
      intro h1 h2
      by_cases hia : i = a
      · subst hia; exact Or.inr h2
      by_cases hib : i = b
      · subst hib; exact Or.inl h1
      obtain ⟨p, hp, hpi, hsub1⟩ := inSub_parent_of_ne sk h1 hia
      obtain ⟨p2, hp2, _, hsub2⟩ := inSub_parent_of_ne sk h2 hib
      rw [hp] at hp2
      injection hp2 with hpp
      subst hpp
      exact ih p hpi hsub1 hsub2

/-- Any joint index with a parent recorded is in range. -/
theorem parent_some_lt_num (sk : Skeleton) {d j : ℕ}
    (h : (sk.jointProperties d).parent = some j) : d < sk.num_joints := by
  by_contra hd
  have hdef : sk.jointProperties d = ⟨none, false⟩ := by
    unfold Skeleton.jointProperties
    apply List.getD_eq_default
    unfold Skeleton.num_joints at hd
    omega
  rw [hdef] at h
  simp at h

/-- Two different children of the same parent root disjoint subtrees. -/
theorem sibling_disjoint (sk : Skeleton) (hwf : WellFormed sk) {j c d i : ℕ}
    (hc : (sk.jointProperties c).parent = some j)
    (hd : (sk.jointProperties d).parent = some j) (hne : c ≠ d)
    (h1 : inSub sk c i = true) (h2 : inSub sk d i = true) : False := by
  have hjc := hwf.parent_lt c j hc
  have hjd := hwf.parent_lt d j hd
  rcases inSub_comparable sk i h1 h2 with h | h
  · -- c is on the chain of d, so c ≤ j < c
    have hcj : inSub sk c j = true := by
      obtain ⟨p, hp, hpi, hsub⟩ := inSub_parent_of_ne sk h (fun he => hne he.symm)
      rw [hd] at hp
      injection hp with hpp
      subst hpp
      exact hsub
    have := inSub_le sk c j hcj
    omega
  · have hdj : inSub sk d j = true := by
      obtain ⟨p, hp, hpi, hsub⟩ := inSub_parent_of_ne sk h hne
      rw [hc] at hp
      injection hp with hpp
      subst hpp
      exact hsub
    have := inSub_le sk d j hdj
    omega

/-- Characterization of the first-child scan: it never moves backwards,
skips exactly the non-children, stops on a child or at the end of the joint
array, and stays within the array bound. -/
theorem firstChildFrom_spec (sk : Skeleton) (j : ℕ) : ∀ c,
    c ≤ firstChildFrom sk j c
    ∧ (∀ e, c ≤ e → e < firstChildFrom sk j c →
        (sk.jointProperties e).parent ≠ some j)
    ∧ (sk.num_joints ≤ firstChildFrom sk j c ∨
        (sk.jointProperties (firstChildFrom sk j c)).parent = some j)
    ∧ (c ≤ sk.num_joints → firstChildFrom sk j c ≤ sk.num_joints) := by
  have H : ∀ μ c, sk.num_joints - c ≤ μ →
      c ≤ firstChildFrom sk j c
      ∧ (∀ e, c ≤ e → e < firstChildFrom sk j c →
          (sk.jointProperties e).parent ≠ some j)
      ∧ (sk.num_joints ≤ firstChildFrom sk j c ∨
          (sk.jointProperties (firstChildFrom sk j c)).parent = some j)
      ∧ (c ≤ sk.num_joints → firstChildFrom sk j c ≤ sk.num_joints) := by
    intro μ
    induction μ with
    | zero =>
        intro c hμ
        have hcn : sk.num_joints ≤ c := by omega
        have hstop : firstChildFrom sk j c = c := by
          unfold firstChildFrom
          rw [dif_neg]
          rintro ⟨h1, _⟩
          omega
        rw [hstop]
        exact ⟨le_rfl, fun e h1 h2 => absurd (lt_of_le_of_lt h1 h2) (lt_irrefl c),
          Or.inl hcn, fun h => h⟩
    | succ μ ih =>
        intro c hμ
        by_cases hg : c < sk.num_joints ∧ (sk.jointProperties c).parent ≠ some j
        · have hstep : firstChildFrom sk j c = firstChildFrom sk j (c + 1) := by
            conv_lhs => rw [firstChildFrom.eq_def]
            rw [dif_pos hg]
          obtain ⟨ih1, ih2, ih3, ih4⟩ := ih (c + 1) (by omega)
          rw [hstep]
          refine ⟨by omega, ?_, ih3, fun _ => ih4 (by omega)⟩
          intro e he1 he2
          rcases eq_or_lt_of_le he1 with he | he
          · subst he; exact hg.2
          · exact ih2 e (by omega) he2
        · have hstop : firstChildFrom sk j c = c := by
            unfold firstChildFrom
            rw [dif_neg hg]
          rw [hstop]
          refine ⟨le_rfl, fun e h1 h2 => absurd (lt_of_le_of_lt h1 h2) (lt_irrefl c),
            ?_, fun h => h⟩
          by_cases hcn : c < sk.num_joints
          · right
            by_contra hne
            exact hg ⟨hcn, hne⟩
          · exact Or.inl (by omega)
  intro c
  exact H (sk.num_joints - c) c le_rfl

/-- Peeling one child off `childrenFrom`. -/
theorem childrenFrom_cons (sk : Skeleton) {j c : ℕ} (hc : c < sk.num_joints)
    (hp : (sk.jointProperties c).parent = some j) :
    childrenFrom sk j c = c :: childrenFrom sk j (c + 1) := by
  unfold childrenFrom
  have hn : sk.num_joints - c = (sk.num_joints - (c + 1)) + 1 := by omega
  rw [hn, List.range'_succ, List.filter_cons_of_pos (by simp [hp])]

/-- `childrenFrom` is empty when no child at index `≥ c` exists. -/
theorem childrenFrom_nil (sk : Skeleton) {j c : ℕ}
    (h : ∀ d, c ≤ d → d < sk.num_joints → (sk.jointProperties d).parent ≠ some j) :
    childrenFrom sk j c = [] := by
  unfold childrenFrom
  rw [List.filter_eq_nil_iff]
  intro d hd
  rw [List.mem_range'_1] at hd
  simp only [beq_iff_eq]
  exact h d (by omega) (by omega)

/-- `childrenOf` equals `childrenFrom c` when no child precedes `c`. -/
theorem childrenOf_eq_from (sk : Skeleton) (j : ℕ) : ∀ c,
    (∀ e, e < c → (sk.jointProperties e).parent ≠ some j) →
    childrenOf sk j = childrenFrom sk j c := by
  intro c
  induction c with
  | zero =>
      intro _
      unfold childrenOf childrenFrom
      rw [List.range_eq_range']
      simp
  | succ c ih =>
      intro h
      rw [ih (fun e he => h e (by omega))]
      unfold childrenFrom
      by_cases hcn : c < sk.num_joints
      · have hn : sk.num_joints - c = (sk.num_joints - (c + 1)) + 1 := by omega
        rw [hn, List.range'_succ, List.filter_cons_of_neg (by simp [h c (by omega)])]
      · have h1 : sk.num_joints - c = 0 := by omega
        have h2 : sk.num_joints - (c + 1) = 0 := by omega
        rw [h1, h2]
        rfl

/-- Membership in the children list. -/
theorem mem_childrenOf (sk : Skeleton) {j d : ℕ} :
    d ∈ childrenOf sk j ↔ (sk.jointProperties d).parent = some j := by
  unfold childrenOf
  rw [List.mem_filter, List.mem_range]
  constructor
  · rintro ⟨_, h⟩
    simpa using h
  · intro h
    exact ⟨parent_some_lt_num sk h, by simp [h]⟩

theorem scaleStep_apply_ne (sk : Skeleton) (j : ℕ) (specs : ℕ → JointSpec)
    {i : ℕ} (h : i ≠ j) : scaleStep sk j specs i = specs i := by
  unfold scaleStep
  cases (sk.jointProperties j).parent with
  | none => rfl
  | some p => exact Function.update_noteq h _ _

theorem scaleStep_apply_self (sk : Skeleton) (j : ℕ) (specs : ℕ → JointSpec) :
    scaleStep sk j specs j = ⟨(specs j).length * pscaleOf sk specs j,
      (specs j).scale * pscaleOf sk specs j⟩ := by
  unfold scaleStep pscaleOf
  cases (sk.jointProperties j).parent with
  | none => simp
  | some p => simp [Function.update_same]

theorem pscaleOf_some (sk : Skeleton) (specs : ℕ → JointSpec) {c j : ℕ}
    (h : (sk.jointProperties c).parent = some j) :
    pscaleOf sk specs c = (specs j).scale := by
  unfold pscaleOf
  rw [h]

theorem reachFold_congr {lg1 lg2 : ℕ → ℚ} {sp1 sp2 : ℕ → JointSpec}
    {l : List ℕ} (h : ∀ d ∈ l, lg1 d = lg2 d ∧ sp1 d = sp2 d) :
    ∀ z, reachFold lg1 sp1 z l = reachFold lg2 sp2 z l := by
  unfold reachFold
  induction l with
  | nil => intro z; rfl
  | cons a t ih =>
      intro z
      rw [List.foldl_cons, List.foldl_cons, (h a (by simp)).1, (h a (by simp)).2]
      exact ih (fun d hd => h d (by simp [hd])) _

/-- `Iter` at an in-range leaf joint. -/
theorem Iter_leaf (sk : Skeleton) (j : ℕ) (specs : ℕ → JointSpec)
    (lengths : ℕ → ℚ) (hj : j < sk.num_joints)
    (hleaf : (sk.jointProperties j).is_leaf = true) :
    Iter sk j specs lengths =
      (Function.update lengths j 0 j + (scaleStep sk j specs j).length,
        scaleStep sk j specs, Function.update lengths j 0) := by
  rw [Iter.eq_def, dif_pos hj]
  simp only [hleaf, if_true]

/-- `Iter` at an in-range non-leaf joint. -/
theorem Iter_nonleaf (sk : Skeleton) (j : ℕ) (specs : ℕ → JointSpec)
    (lengths : ℕ → ℚ) (hj : j < sk.num_joints)
    (hleaf : ¬ (sk.jointProperties j).is_leaf = true) :
    Iter sk j specs lengths =
      ((iterChildren sk j (firstChildFrom sk j (j + 1)) (scaleStep sk j specs) lengths).2 j
        + ((iterChildren sk j (firstChildFrom sk j (j + 1)) (scaleStep sk j specs) lengths).1 j).length,
        iterChildren sk j (firstChildFrom sk j (j + 1)) (scaleStep sk j specs) lengths) := by
  rw [Iter.eq_def, dif_pos hj]
  simp only [hleaf, Bool.false_eq_true, if_false]

/-- One pass of the child loop at a child of `j`. -/
theorem iterChildren_cons (sk : Skeleton) (j c : ℕ) (specs : ℕ → JointSpec)
    (lengths : ℕ → ℚ)
    (hg : c < sk.num_joints ∧ (sk.jointProperties c).parent = some j) :
    iterChildren sk j c specs lengths =
      iterChildren sk j (c + 1) (Iter sk c specs lengths).2.1
        (Function.update (Iter sk c specs lengths).2.2 j
          (max ((Iter sk c specs lengths).2.2 j) (Iter sk c specs lengths).1)) := by
  rw [iterChildren.eq_def, dif_pos hg]

/-- The child loop stops when `c` is not a child of `j`. -/
theorem iterChildren_stop (sk : Skeleton) (j c : ℕ) (specs : ℕ → JointSpec)
    (lengths : ℕ → ℚ)
    (hg : ¬ (c < sk.num_joints ∧ (sk.jointProperties c).parent = some j)) :
    iterChildren sk j c specs lengths = (specs, lengths) := by
  rw [iterChildren.eq_def, dif_neg hg]

/-- Master characterization of the bone-length traversal: on a well-formed
skeleton, `Iter` and its child loop satisfy their postconditions whenever
the length slots of the still-unvisited subtree are zero.  Proved by strong
induction on the measure that also drives the recursion. -/
theorem iter_main (sk : Skeleton) (hwf : WellFormed sk) : ∀ μ : ℕ,
    (∀ j specs lengths, 2 * (sk.num_joints - j) ≤ μ → j < sk.num_joints →
      (∀ i, inSub sk j i = true → lengths i = 0) →
      IterConc sk j specs lengths (Iter sk j specs lengths))
    ∧ (∀ j c specs lengths, 2 * (sk.num_joints - c) + 1 ≤ μ → j < sk.num_joints →
        j < c →
        (∀ d, c ≤ d → (sk.jointProperties d).parent = some j →
          (sk.jointProperties c).parent = some j) →
        (∀ i, RemSub sk j c i → lengths i = 0) →
        ChildConc sk j c specs lengths (iterChildren sk j c specs lengths)) := by
  intro μ
  induction μ using Nat.strong_induction_on with
  | _ μ IH =>
    constructor
    · intro j specs lengths hμ hj HL
      by_cases hleaf : (sk.jointProperties j).is_leaf = true
      · rw [Iter_leaf sk j specs lengths hj hleaf]
        have hsub_only : ∀ i, inSub sk j i = true → i = j := by
          intro i hi
          by_contra hne
          obtain ⟨d, hd1, _, _⟩ := inSub_elim sk i hi hne
          exact (hwf.leaf_iff j hj).1 hleaf d hd1
        unfold IterConc
        dsimp only
        refine ⟨?_, ?_, ?_, ?_, ?_⟩
        · intro i hi
          have hij : i ≠ j := by
            intro he; subst he; rw [inSub_self] at hi; cases hi
          exact ⟨scaleStep_apply_ne sk j specs hij, Function.update_noteq hij _ _⟩
        · exact scaleStep_apply_self sk j specs
        · intro i p hi hne _
          exact absurd (hsub_only i hi) hne
        · intro i hi
          have hieq := hsub_only i hi
          subst hieq
          rw [Function.update_same, if_pos hleaf]
        · rfl
      · rw [Iter_nonleaf sk j specs lengths hj hleaf]
        obtain ⟨hfc1, hfc2, hfc3, hfc4⟩ := firstChildFrom_spec sk j (j + 1)
        set c0 := firstChildFrom sk j (j + 1) with hc0def
        have hc0_gt : j < c0 := by omega
        have hnochild_lt : ∀ e, e < c0 → (sk.jointProperties e).parent ≠ some j := by
          intro e he
          by_cases hej : j + 1 ≤ e
          · exact hfc2 e hej he
          · intro hcp
            have := hwf.parent_lt e j hcp
            omega
        have Hiv : ∀ d, c0 ≤ d → (sk.jointProperties d).parent = some j →
            (sk.jointProperties c0).parent = some j := by
          intro d hd hdp
          rcases hfc3 with h | h
          · have := parent_some_lt_num sk hdp
            omega
          · exact h
        have HL2 : ∀ i, RemSub sk j c0 i → lengths i = 0 := by
          rintro i ⟨d, _, hd2, hd3⟩
          exact HL i (inSub_trans sk i hd3 (inSub_step sk hd2 (hwf.parent_lt d j hd2)))
        have hch := (IH (μ - 1) (by omega)).2 j c0 (scaleStep sk j specs) lengths
          (by omega) hj hc0_gt Hiv HL2
        unfold ChildConc at hch
        obtain ⟨hG1, hG2, hG3, hG4, hG5⟩ := hch
        unfold IterConc
        dsimp only
        refine ⟨?_, ?_, ?_, ?_, ?_⟩
        · intro i hi
          have hij : i ≠ j := by
            intro he; subst he; rw [inSub_self] at hi; cases hi
          have hnrem : ¬ RemSub sk j c0 i := by
            rintro ⟨d, _, hd2, hd3⟩
            have hc : inSub sk j i = true :=
              inSub_trans sk i hd3 (inSub_step sk hd2 (hwf.parent_lt d j hd2))
            rw [hi] at hc
            cases hc
          obtain ⟨e1, e2⟩ := hG1 i hnrem hij
          exact ⟨by rw [e1, scaleStep_apply_ne sk j specs hij], e2⟩
        · rw [hG2]
          exact scaleStep_apply_self sk j specs
        · intro i p hi hne hp
          have hrem : RemSub sk j c0 i := by
            obtain ⟨d, hd1, hd2, hd3⟩ := inSub_elim sk i hi hne
            refine ⟨d, ?_, hd1, hd3⟩
            by_contra hlt
            exact hnochild_lt d (by omega) hd1
          rw [hG4 i p hrem hp, scaleStep_apply_ne sk j specs hne]
        · intro i hi
          by_cases hij : i = j
          · subst hij
            rw [hG3, if_neg hleaf, HL i (inSub_self sk i),
              ← childrenOf_eq_from sk i c0 hnochild_lt]
          · have hrem : RemSub sk j c0 i := by
              obtain ⟨d, hd1, hd2, hd3⟩ := inSub_elim sk i hi hij
              refine ⟨d, ?_, hd1, hd3⟩
              by_contra hlt
              exact hnochild_lt d (by omega) hd1
            exact hG5 i hrem
        · rfl
    · intro j c specs lengths hμ hj hjc Hiv HL
      by_cases hg : c < sk.num_joints ∧ (sk.jointProperties c).parent = some j
      · rw [iterChildren_cons sk j c specs lengths hg]
        have hIc := (IH (μ - 1) (by omega)).1 c specs lengths (by omega) hg.1
          (fun i hi => HL i ⟨c, le_rfl, hg.2, hi⟩)
        unfold IterConc at hIc
        obtain ⟨hF1, hA1, hB1, hC1, hD1⟩ := hIc
        set r1 := Iter sk c specs lengths with hr1def
        set lengths2 := Function.update r1.2.2 j (max (r1.2.2 j) r1.1) with hl2def
        have hjc_notin : inSub sk c j = false := by
          rw [← Bool.not_eq_true]
          intro hcj
          have := inSub_le sk c j hcj
          omega
        have Hiv2 : ∀ d, c + 1 ≤ d → (sk.jointProperties d).parent = some j →
            (sk.jointProperties (c + 1)).parent = some j := by
          intro d hd hdp
          exact hwf.children_interval j c (c + 1) d hg.2 hdp (by omega) hd
        have hframe_pre : ∀ i, RemSub sk j (c + 1) i → inSub sk c i = false := by
          rintro i ⟨d, hd1, hd2, hd3⟩
          rw [← Bool.not_eq_true]
          intro hci
          exact sibling_disjoint sk hwf hg.2 hd2 (by omega) hci hd3
        have HL2 : ∀ i, RemSub sk j (c + 1) i → lengths2 i = 0 := by
          rintro i ⟨d, hd1, hd2, hd3⟩
          have hij : i ≠ j := by
            have h1 := inSub_le sk d i hd3
            have h2 := hwf.parent_lt d j hd2
            omega
          rw [hl2def, Function.update_noteq hij _ _,
            (hF1 i (hframe_pre i ⟨d, hd1, hd2, hd3⟩)).2]
          exact HL i ⟨d, by omega, hd2, hd3⟩
        have hch := (IH (μ - 1) (by omega)).2 j (c + 1) r1.2.1 lengths2
          (by omega) hj (by omega) Hiv2 HL2
        unfold ChildConc at hch
        obtain ⟨hG1, hG2, hG3, hG4, hG5⟩ := hch
        set R := iterChildren sk j (c + 1) r1.2.1 lengths2 with hRdef
        have hframeC : ∀ i, inSub sk c i = true →
            R.1 i = r1.2.1 i ∧ R.2 i = r1.2.2 i := by
          intro i hi
          have hij : i ≠ j := by
            have := inSub_le sk c i hi
            omega
          have hnr2 : ¬ RemSub sk j (c + 1) i := by
            rintro ⟨d, hd1, hd2, hd3⟩
            exact sibling_disjoint sk hwf hg.2 hd2 (by omega) hi hd3
          obtain ⟨e1, e2⟩ := hG1 i hnr2 hij
          refine ⟨e1, ?_⟩
          rw [e2, hl2def, Function.update_noteq hij _ _]
        have hRj1 : R.1 j = specs j := by
          rw [hG2, (hF1 j hjc_notin).1]
        unfold ChildConc
        refine ⟨?_, ?_, ?_, ?_, ?_⟩
        · intro i hnr hij
          have hnr2 : ¬ RemSub sk j (c + 1) i := by
            rintro ⟨d, hd1, hd2, hd3⟩
            exact hnr ⟨d, by omega, hd2, hd3⟩
          have hnc : inSub sk c i = false := by
            rw [← Bool.not_eq_true]
            intro hci
            exact hnr ⟨c, le_rfl, hg.2, hci⟩
          obtain ⟨e1, e2⟩ := hG1 i hnr2 hij
          constructor
          · rw [e1, (hF1 i hnc).1]
          · rw [e2, hl2def, Function.update_noteq hij _ _, (hF1 i hnc).2]
        · exact hRj1
        · have hRc := hframeC c (inSub_self sk c)
          rw [childrenFrom_cons sk hg.1 hg.2]
          unfold reachFold
          rw [List.foldl_cons, hG3]
          unfold reachFold
          congr 1
          dsimp only
          rw [hl2def, Function.update_same, (hF1 j hjc_notin).2, hD1,
            hRc.1, hRc.2]
        · rintro i p ⟨d, hd1, hd2, hd3⟩ hp
          rcases eq_or_lt_of_le hd1 with hdc | hdc
          · subst hdc
            by_cases hic : i = c
            · subst hic
              rw [hg.2] at hp
              injection hp with hpj
              subst hpj
              rw [(hframeC i (inSub_self sk i)).1, hA1,
                pscaleOf_some sk specs hg.2, hRj1]
            · obtain ⟨p0, hp0, hp0i, hsubp⟩ := inSub_parent_of_ne sk hd3 hic
              rw [hp] at hp0
              injection hp0 with hpp
              subst hpp
              rw [(hframeC i hd3).1, hB1 i p hd3 hic hp, (hframeC p hsubp).1]
          · have hrem2 : RemSub sk j (c + 1) i := ⟨d, by omega, hd2, hd3⟩
            rw [hG4 i p hrem2 hp, (hF1 i (hframe_pre i hrem2)).1]
        · rintro i ⟨d, hd1, hd2, hd3⟩
          rcases eq_or_lt_of_le hd1 with hdc | hdc
          · subst hdc
            rw [(hframeC i hd3).2, hC1 i hd3]
            by_cases hlf : (sk.jointProperties i).is_leaf = true
            · rw [if_pos hlf, if_pos hlf]
            · rw [if_neg hlf, if_neg hlf]
              apply reachFold_congr
              intro e he
              have hpe : (sk.jointProperties e).parent = some i := (mem_childrenOf sk).1 he
              have hie : inSub sk c e = true :=
                inSub_trans sk e (inSub_step sk hpe (hwf.parent_lt e i hpe)) hd3
              exact ⟨(hframeC e hie).2.symm, (hframeC e hie).1.symm⟩
          · exact hG5 i ⟨d, by omega, hd2, hd3⟩
      · rw [iterChildren_stop sk j c specs lengths hg]
        have hnochild : ∀ d, c ≤ d → d < sk.num_joints →
            (sk.jointProperties d).parent ≠ some j := by
          intro d hd hdn hdp
          exact hg ⟨by omega, Hiv d hd hdp⟩
        have hnorem : ∀ i, ¬ RemSub sk j c i := by
          rintro i ⟨d, hd1, hd2, hd3⟩
          exact hnochild d hd1 (parent_some_lt_num sk hd2) hd2
        unfold ChildConc
        refine ⟨fun i _ _ => ⟨rfl, rfl⟩, rfl, ?_,
          fun i p hrem _ => absurd hrem (hnorem i),
          fun i hrem => absurd hrem (hnorem i)⟩
        rw [childrenFrom_nil sk hnochild]
        rfl

/-- A false inner-loop test certifies the interpolation check for every
tested key. -/
theorem innerFails_false_elim {α : Type} [Inhabited α] (src : List (Keyframe α))
    (cmp : α → α → ℚ → Bool) (lerp : α → α → ℚ → α) (tol : ℚ)
    (l i : ℕ) (hli : l < i) (h : innerFails src cmp lerp tol l i = false) :
    ∀ j, l < j → j ≤ i → keyCheck src cmp lerp tol l (i + 1) j := by
  intro j h1 h2
  unfold keyCheck
  by_contra hc
  have hmem : j ∈ List.range' (l + 1) (i - l) := by
    rw [List.mem_range'_1]
    omega
  have htrue : innerFails src cmp lerp tol l i = true := by
    unfold innerFails
    rw [List.any_eq_true]
    refine ⟨j, hmem, ?_⟩
    dsimp only
    rw [Bool.not_eq_true']
    exact Bool.eq_false_iff.mpr hc
  rw [h] at htrue
  exact Bool.false_ne_true htrue

/-- Adjacent entries of a chained list, through optional indexing. -/
theorem chain'_getElem?_adjacent {β : Type} {Rel : β → β → Prop} :
    ∀ {l : List β}, List.Chain' Rel l →
      ∀ a x y, l[a]? = some x → l[a + 1]? = some y → Rel x y := by
  intro l
  induction l with
  | nil =>
      intro _ a x y hx _
      simp at hx
  | cons b t ih =>
      intro h a x y hx hy
      cases a with
      | zero =>
          simp only [List.getElem?_cons_zero, Option.some_inj] at hx
          subst hx
          cases t with
          | nil => simp at hy
          | cons b2 t2 =>
              simp only [List.getElem?_cons_succ, List.getElem?_cons_zero,
                Option.some_inj] at hy
              subst hy
              exact (List.chain'_cons.1 h).1
      | succ a =>
          simp only [List.getElem?_cons_succ] at hx hy
          exact ih h.tail a x y hx hy

/-- C1: for every channel keyframe sequence with strictly increasing times,
every tolerance `≥ 0` and every comparator/interpolator pair, the filtered
sequence is the retained-index list read back through the source, and for
every pair of adjacent retained keyframes and every original keyframe lying
strictly between them, the comparator accepts the value interpolated from
the two retained keyframes at that keyframe's normalized time fraction
against the original value, within the tolerance. -/
theorem filter_decimation_safety {α : Type} [Inhabited α]
    (src : List (Keyframe α)) (cmp : α → α → ℚ → Bool) (lerp : α → α → ℚ → α)
    (tol : ℚ) (htol : 0 ≤ tol)
    (hmono : List.Chain' (fun a b : Keyframe α => a.time < b.time) src) :
    Filter src cmp lerp tol = (retainedIdx src cmp lerp tol).map (nthKey src)
    ∧ ∀ a p q, (retainedIdx src cmp lerp tol)[a]? = some p →
        (retainedIdx src cmp lerp tol)[a + 1]? = some q →
        ∀ j, p < j → j < q → keyCheck src cmp lerp tol p q j := by
  refine ⟨filter_eq_map_retained src cmp lerp tol, ?_⟩
  intro a p q hp hq j hpj hjq
  rcases Nat.eq_zero_or_pos src.length with h0 | h0
  · unfold retainedIdx at hp
    rw [h0, keptIdx_zero] at hp
    simp at hp
  · have hspec := keptIdx_spec src.length (innerFails src cmp lerp tol)
      (keyCheck src cmp lerp tol)
      (fun l i hli hF jj hj1 hj2 =>
        innerFails_false_elim src cmp lerp tol l i hli hF jj hj1 hj2)
      h0
    unfold retainedIdx at hp hq
    exact (chain'_getElem?_adjacent hspec.2.2.1 a p q hp hq).2 j hpj hjq

/-- C2: for every input keyframe sequence with strictly increasing times,
the filtered sequence is no longer than the input, still strictly
time-ordered, keeps the input's first and last keyframes (hence its first
and last times), and is empty exactly when the input is. -/
theorem filter_output_guarantees {α : Type} [Inhabited α]
    (src : List (Keyframe α)) (cmp : α → α → ℚ → Bool) (lerp : α → α → ℚ → α)
    (tol : ℚ)
    (hmono : List.Chain' (fun a b : Keyframe α => a.time < b.time) src) :
    (Filter src cmp lerp tol).length ≤ src.length
    ∧ List.Chain' (fun a b : Keyframe α => a.time < b.time) (Filter src cmp lerp tol)
    ∧ (Filter src cmp lerp tol).head? = src.head?
    ∧ (Filter src cmp lerp tol).getLast? = src.getLast?
    ∧ (Filter src cmp lerp tol = [] ↔ src = []) := by
  refine ⟨filter_length_le src cmp lerp tol, ?_, filter_head? src cmp lerp tol,
    filter_getLast? src cmp lerp tol, filter_eq_nil_iff src cmp lerp tol⟩
  rcases eq_or_ne src [] with h | h
  · subst h
    have hnil : Filter ([] : List (Keyframe α)) cmp lerp tol = [] := rfl
    rw [hnil]
    exact List.chain'_nil
  · have hn : 1 ≤ src.length := List.length_pos.2 h
    have hspec := keptIdx_spec src.length (innerFails src cmp lerp tol)
      (fun _ _ _ => True) (fun _ _ _ _ _ _ _ => trivial) hn
    have hchain : List.Chain' (· < ·) (retainedIdx src cmp lerp tol) :=
      hspec.2.2.1.imp (fun {a b} hab => hab.1)
    have hmem := hspec.2.2.2.1
    haveI : IsTrans (Keyframe α) (fun a b : Keyframe α => a.time < b.time) :=
      ⟨fun _ _ _ h1 h2 => lt_trans h1 h2⟩
    have hpw_src : List.Pairwise (fun a b : Keyframe α => a.time < b.time) src :=
      List.chain'_iff_pairwise.1 hmono
    have hpw_idx : List.Pairwise (· < ·) (retainedIdx src cmp lerp tol) :=
      List.chain'_iff_pairwise.1 hchain
    have hsrc_time : ∀ a b, a < b → b < src.length →
        (nthKey src a).time < (nthKey src b).time := by
      intro a b hab hb
      have ha : a < src.length := lt_trans hab hb
      rw [nthKey_eq_getElem ha, nthKey_eq_getElem hb]
      exact List.pairwise_iff_getElem.1 hpw_src a b ha hb hab
    rw [filter_eq_map_retained, List.chain'_map]
    exact List.Pairwise.chain'
      (hpw_idx.imp_of_mem (fun {a b} ha hb hab => hsrc_time a b hab (hmem b hb)))

theorem le_reachFold (lg : ℕ → ℚ) (sp : ℕ → JointSpec) :
    ∀ (l : List ℕ) (z : ℚ), z ≤ reachFold lg sp z l := by
  unfold reachFold
  intro l
  induction l with
  | nil => intro z; exact le_rfl
  | cons a t ih =>
      intro z
      rw [List.foldl_cons]
      exact le_trans (le_max_left _ _) (ih _)

theorem mem_le_reachFold (lg : ℕ → ℚ) (sp : ℕ → JointSpec) :
    ∀ (l : List ℕ) (z : ℚ) (d : ℕ), d ∈ l →
      lg d + (sp d).length ≤ reachFold lg sp z l := by
  intro l
  induction l with
  | nil => intro z d hd; simp at hd
  | cons a t ih =>
      intro z d hd
      unfold reachFold
      rw [List.foldl_cons]
      rcases List.mem_cons.1 hd with h | h
      · subst h
        exact le_trans (le_max_right _ _) (le_reachFold lg sp t _)
      · exact ih _ d h

/-- C4: on a well-formed skeleton forest, with the subtree's length slots
zeroed, the traversal `Iter` satisfies: the entry joint's local length and
scale are multiplied by its parent's accumulated scale; every descendant's
local length and scale are multiplied by its parent's finalized accumulated
scale; a leaf joint's reach is `0` while a non-leaf joint's reach is the
maximum over its children of child reach plus child accumulated length; and
the value returned for the entry joint `j` is `reach[j] + length[j]`. -/
theorem iter_bone_reach (sk : Skeleton) (hwf : WellFormed sk) (j : ℕ)
    (hj : j < sk.num_joints) (specs : ℕ → JointSpec) (lengths : ℕ → ℚ)
    (h0 : ∀ i, inSub sk j i = true → lengths i = 0) :
    ((Iter sk j specs lengths).2.1 j =
      ⟨(specs j).length * pscaleOf sk specs j, (specs j).scale * pscaleOf sk specs j⟩)
    ∧ (∀ i p, inSub sk j i = true → i ≠ j → (sk.jointProperties i).parent = some p →
        (Iter sk j specs lengths).2.1 i =
          ⟨(specs i).length * ((Iter sk j specs lengths).2.1 p).scale,
            (specs i).scale * ((Iter sk j specs lengths).2.1 p).scale⟩)
    ∧ (∀ i, inSub sk j i = true →
        (Iter sk j specs lengths).2.2 i =
          if (sk.jointProperties i).is_leaf then 0
          else reachFold (Iter sk j specs lengths).2.2 (Iter sk j specs lengths).2.1 0
            (childrenOf sk i))
    ∧ (Iter sk j specs lengths).1 =
        (Iter sk j specs lengths).2.2 j + ((Iter sk j specs lengths).2.1 j).length := by
  have h := (iter_main sk hwf (2 * (sk.num_joints - j))).1 j specs lengths le_rfl hj h0
  unfold IterConc at h
  exact ⟨h.2.1, h.2.2.1, h.2.2.2.1, h.2.2.2.2⟩

/-- Nonnegative local pairs and length slots stay nonnegative through the
traversal. -/
theorem iter_nonneg (sk : Skeleton) (hwf : WellFormed sk) (j : ℕ)
    (hj : j < sk.num_joints) (specs : ℕ → JointSpec) (lengths : ℕ → ℚ)
    (h0 : ∀ i, inSub sk j i = true → lengths i = 0)
    (hpos : ∀ i, 0 ≤ (specs i).length ∧ 0 ≤ (specs i).scale)
    (hl : ∀ i, 0 ≤ lengths i) :
    ∀ i, 0 ≤ ((Iter sk j specs lengths).2.1 i).length
      ∧ 0 ≤ ((Iter sk j specs lengths).2.1 i).scale
      ∧ 0 ≤ (Iter sk j specs lengths).2.2 i := by
  intro i
  induction i using Nat.strong_induction_on with
  | _ i ih =>
      by_cases hin : inSub sk j i = true
      · obtain ⟨hA, hB, hC, hD⟩ := iter_bone_reach sk hwf j hj specs lengths h0
        have hlg : 0 ≤ (Iter sk j specs lengths).2.2 i := by
          rw [hC i hin]
          by_cases hlf : (sk.jointProperties i).is_leaf = true
          · rw [if_pos hlf]
          · rw [if_neg hlf]
            exact le_reachFold _ _ _ 0
        by_cases hij : i = j
        · subst hij
          rw [hA]
          have hp : 0 ≤ pscaleOf sk specs i := by
            unfold pscaleOf
            cases (sk.jointProperties i).parent with
            | none => norm_num
            | some p => exact (hpos p).2
          exact ⟨mul_nonneg (hpos i).1 hp, mul_nonneg (hpos i).2 hp, hlg⟩
        · obtain ⟨p, hp, hpi, _⟩ := inSub_parent_of_ne sk hin hij
          have hpn := ih p hpi
          rw [hB i p hin hij hp]
          exact ⟨mul_nonneg (hpos i).1 hpn.2.1, mul_nonneg (hpos i).2 hpn.2.1, hlg⟩
      · have hfalse : inSub sk j i = false := by
          rw [← Bool.not_eq_true]
          exact hin
        have hF := (iter_main sk hwf (2 * (sk.num_joints - j))).1 j specs lengths
          le_rfl hj h0
        unfold IterConc at hF
        obtain ⟨e1, e2⟩ := hF.1 i hfalse
        rw [e1, e2]
        exact ⟨(hpos i).1, (hpos i).2, hl i⟩

/-- C9: reach monotonicity: after the traversal on a well-formed skeleton
with nonnegative local pairs, for every non-root joint `c` with parent `p`
inside the traversed subtree, the parent's accumulated total length
(`reach[p] + length[p]`) is at least `c`'s own accumulated local length;
reach never decreases toward the root. -/
theorem iter_reach_monotone (sk : Skeleton) (hwf : WellFormed sk) (j : ℕ)
    (hj : j < sk.num_joints) (specs : ℕ → JointSpec) (lengths : ℕ → ℚ)
    (h0 : ∀ i, inSub sk j i = true → lengths i = 0)
    (hpos : ∀ i, 0 ≤ (specs i).length ∧ 0 ≤ (specs i).scale)
    (hl : ∀ i, 0 ≤ lengths i) :
    ∀ c p, inSub sk j c = true → (sk.jointProperties c).parent = some p →
      inSub sk j p = true →
      ((Iter sk j specs lengths).2.1 c).length ≤
        (Iter sk j specs lengths).2.2 p + ((Iter sk j specs lengths).2.1 p).length := by
  intro c p hc hp hpj
  obtain ⟨hA, hB, hC, hD⟩ := iter_bone_reach sk hwf j hj specs lengths h0
  have hnn := iter_nonneg sk hwf j hj specs lengths h0 hpos hl
  have hcn : c < sk.num_joints := parent_some_lt_num sk hp
  have hpc : p < c := hwf.parent_lt c p hp
  have hnl : ¬ (sk.jointProperties p).is_leaf = true := by
    intro hlf
    exact (hwf.leaf_iff p (by omega)).1 hlf c hp
  have hCp := hC p hpj
  rw [if_neg hnl] at hCp
  have hmemc : c ∈ childrenOf sk p := (mem_childrenOf sk).2 hp
  have hle : (Iter sk j specs lengths).2.2 c + ((Iter sk j specs lengths).2.1 c).length
      ≤ (Iter sk j specs lengths).2.2 p := by
    rw [hCp]
    exact mem_le_reachFold _ _ _ 0 c hmemc
  have h1 : 0 ≤ (Iter sk j specs lengths).2.2 c := (hnn c).2.2
  have h2 : 0 ≤ ((Iter sk j specs lengths).2.1 p).length := (hnn p).1
  linarith

/-- C10: when the non-leaf joint `j` has a child at a higher index, the
first-child scan (lines 84-89) stops at an in-range joint index whose
parent is `j`: every access is within bounds and the terminating assertion
`properties[child].parent == _joint` (line 90) holds. -/
theorem firstChild_found (sk : Skeleton) (j : ℕ)
    (hchild : ∃ c, j < c ∧ c < sk.num_joints ∧ (sk.jointProperties c).parent = some j) :
    firstChildFrom sk j (j + 1) < sk.num_joints
    ∧ (sk.jointProperties (firstChildFrom sk j (j + 1))).parent = some j := by
  obtain ⟨c, hc1, hc2, hc3⟩ := hchild
  obtain ⟨h1, h2, h3, _⟩ := firstChildFrom_spec sk j (j + 1)
  have hle : firstChildFrom sk j (j + 1) ≤ c := by
    by_contra hgt
    exact h2 c (by omega) (by omega) hc3
  rcases h3 with h | h
  · omega
  · exact ⟨by omega, h⟩

/-- Bounded, decidable checks suffice for `WellFormed` on concrete
skeletons. -/
theorem wellFormed_of_bounded (sk : Skeleton)
    (h1 : ∀ i, i < sk.num_joints →
      ((sk.jointProperties i).parent.getD 0 < i ∨ (sk.jointProperties i).parent = none))
    (h2 : ∀ j, j < sk.num_joints → ∀ a, a < sk.num_joints → ∀ b, b < sk.num_joints →
      ∀ d, d < sk.num_joints →
      ¬ ((sk.jointProperties a).parent = some j ∧ (sk.jointProperties d).parent = some j
          ∧ a ≤ b ∧ b ≤ d)
      ∨ (sk.jointProperties b).parent = some j)
    (h3 : ∀ j, j < sk.num_joints →
      ((sk.jointProperties j).is_leaf = true ↔
        ∀ d, d < sk.num_joints → (sk.jointProperties d).parent ≠ some j)) :
    WellFormed sk := by
  have hpl : ∀ i p, (sk.jointProperties i).parent = some p → p < i := by
    intro i p hp
    have h := h1 i (parent_some_lt_num sk hp)
    rw [hp] at h
    rcases h with h | h
    · simpa using h
    · simp at h
  constructor
  · exact hpl
  · intro j a b d ha hd hab hbd
    have han := parent_some_lt_num sk ha
    have hdn := parent_some_lt_num sk hd
    have hja : j < a := hpl a j ha
    rcases h2 j (by omega) a han b (by omega) d hdn with h | h
    · exact absurd ⟨ha, hd, hab, hbd⟩ h
    · exact h
  · intro j hj
    constructor
    · intro hlf d hdp
      exact (h3 j hj).1 hlf d (parent_some_lt_num sk hdp) hdp
    · intro hnone
      exact (h3 j hj).2 (fun d _ hdp => hnone d hdp)

/-- C3: `operator()` (for a non-null output) returns failure exactly when
the raw animation is internally invalid or its track count differs from the
skeleton's joint count; whenever it fails the output animation is the
default-constructed one, never partially populated. -/
theorem optimize_fails_iff (opt : AnimationOptimizer)
    (cmp3 : Float3 → Float3 → ℚ → Bool) (cmpQ : Quaternion → Quaternion → ℚ → Bool)
    (lerp3 : Float3 → Float3 → ℚ → Float3)
    (nlerp : Quaternion → Quaternion → ℚ → Quaternion)
    (len3 : Float3 → ℚ) (input : RawAnimation) (sk : Skeleton) :
    ((opt.run cmp3 cmpQ lerp3 nlerp len3 input sk).1 = false ↔
      (input.Validate = false ∨ input.num_tracks ≠ sk.num_joints))
    ∧ ((opt.run cmp3 cmpQ lerp3 nlerp len3 input sk).1 = false →
        (opt.run cmp3 cmpQ lerp3 nlerp len3 input sk).2 = defaultRawAnimation) := by
  unfold AnimationOptimizer.run
  by_cases hv : input.Validate = false
  · rw [if_pos hv]
    exact ⟨⟨fun _ => Or.inl hv, fun _ => rfl⟩, fun _ => rfl⟩
  · rw [if_neg hv]
    by_cases hc : input.num_tracks ≠ sk.num_joints
    · rw [if_pos hc]
      exact ⟨⟨fun _ => Or.inr hc, fun _ => rfl⟩, fun _ => rfl⟩
    · rw [if_neg hc]
      refine ⟨⟨fun h => ?_, fun h => ?_⟩, fun h => ?_⟩
      · exact absurd h (by simp)
      · rcases h with h | h
        · exact absurd h hv
        · exact absurd h hc
      · exact absurd h (by simp)

/-- C6: the result of `operator()` does not depend on the skeleton beyond
its joint count: two skeletons whose joint counts both equal the
animation's track count yield identical outputs, because the computed
bone-length table is never used — every channel is filtered with the
unscaled global tolerance. -/
theorem optimize_skeleton_independent (opt : AnimationOptimizer)
    (cmp3 : Float3 → Float3 → ℚ → Bool) (cmpQ : Quaternion → Quaternion → ℚ → Bool)
    (lerp3 : Float3 → Float3 → ℚ → Float3)
    (nlerp : Quaternion → Quaternion → ℚ → Quaternion)
    (len3 : Float3 → ℚ) (input : RawAnimation) (sk1 sk2 : Skeleton)
    (h1 : sk1.num_joints = input.num_tracks)
    (h2 : sk2.num_joints = input.num_tracks) :
    opt.run cmp3 cmpQ lerp3 nlerp len3 input sk1
      = opt.run cmp3 cmpQ lerp3 nlerp len3 input sk2 := by
  unfold AnimationOptimizer.run
  by_cases hv : input.Validate = false
  · rw [if_pos hv, if_pos hv]
  · rw [if_neg hv, if_neg hv, if_neg (show ¬ input.num_tracks ≠ sk1.num_joints by omega),
      if_neg (show ¬ input.num_tracks ≠ sk2.num_joints by omega)]

theorem foldl_max_spec {β : Type} (f : β → ℚ) :
    ∀ (l : List β) (z : ℚ),
      z ≤ l.foldl (fun m k => max m (f k)) z
      ∧ (∀ k ∈ l, f k ≤ l.foldl (fun m k => max m (f k)) z)
      ∧ (l.foldl (fun m k => max m (f k)) z = z ∨
          ∃ k ∈ l, l.foldl (fun m k => max m (f k)) z = f k) := by
  intro l
  induction l with
  | nil => intro z; exact ⟨le_rfl, by simp, Or.inl rfl⟩
  | cons a t ih =>
      intro z
      rw [List.foldl_cons]
      obtain ⟨ih1, ih2, ih3⟩ := ih (max z (f a))
      refine ⟨le_trans (le_max_left _ _) ih1, ?_, ?_⟩
      · intro k hk
        rcases List.mem_cons.1 hk with h | h
        · subst h; exact le_trans (le_max_right _ _) ih1
        · exact ih2 k h
      · rcases ih3 with h | ⟨k, hk, hkeq⟩
        · rcases max_cases z (f a) with ⟨hm, _⟩ | ⟨hm, _⟩
          · left; rw [h, hm]
          · right; exact ⟨a, by simp, by rw [h, hm]⟩
        · right; exact ⟨k, by simp [hk], hkeq⟩

theorem foldl_max3_eq (l : List (Keyframe Float3)) (z : ℚ) :
    l.foldl (fun m k => max (max (max m k.value.x) k.value.y) k.value.z) z
      = l.foldl (fun m k => max m (max k.value.x (max k.value.y k.value.z))) z := by
  have hfun : (fun (m : ℚ) (k : Keyframe Float3) =>
        max (max (max m k.value.x) k.value.y) k.value.z)
      = fun m k => max m (max k.value.x (max k.value.y k.value.z)) := by
    funext m k
    rw [max_assoc, max_assoc]
  rw [hfun]

/-- C5 counterexample: for a track whose only scale keyframe is
`(-2, -2, -2)`, `BuildBoneLength`'s local scale is `0` (a fold of raw
signed components seeded with `0`), not the claimed maximum absolute
component `2`. -/
theorem trackMaxScale_not_claimed :
    trackMaxScale ⟨[], [], [⟨0, ⟨-2, -2, -2⟩⟩]⟩ = 0
    ∧ claimedTrackScale ⟨[], [], [⟨0, ⟨-2, -2, -2⟩⟩]⟩ = 2
    ∧ trackMaxScale ⟨[], [], [⟨0, ⟨-2, -2, -2⟩⟩]⟩
        ≠ claimedTrackScale ⟨[], [], [⟨0, ⟨-2, -2, -2⟩⟩]⟩ := by
  have h1 : trackMaxScale ⟨[], [], [⟨0, ⟨-2, -2, -2⟩⟩]⟩ = 0 := by
    norm_num [trackMaxScale, max_def]
  have h2 : claimedTrackScale ⟨[], [], [⟨0, ⟨-2, -2, -2⟩⟩]⟩ = 2 := by
    have habs : |(-2 : ℚ)| = 2 := by norm_num
    norm_num [claimedTrackScale, max_def, habs]
  refine ⟨h1, h2, ?_⟩
  rw [h1, h2]
  norm_num

/-- C5 amended: the per-joint local pair computed before the traversal is:
length = the maximum of `0` and the `Length` values of the translation
keyframes (an attained least upper bound, `0` if there are none); scale =
`1` when the joint has no scale keyframes, otherwise the maximum of `0` and
the raw signed components of the scale keyframes (an attained least upper
bound) — not the maximum absolute component. -/
theorem trackLocal_pair_characterization (len3 : Float3 → ℚ) (t : JointTrack) :
    (∀ k ∈ t.translations, len3 k.value ≤ trackMaxLength len3 t)
    ∧ 0 ≤ trackMaxLength len3 t
    ∧ (trackMaxLength len3 t = 0 ∨
        ∃ k ∈ t.translations, trackMaxLength len3 t = len3 k.value)
    ∧ (t.scales = [] → trackMaxScale t = 1)
    ∧ (∀ k ∈ t.scales, k.value.x ≤ trackMaxScale t ∧ k.value.y ≤ trackMaxScale t ∧
        k.value.z ≤ trackMaxScale t)
    ∧ (t.scales ≠ [] → 0 ≤ trackMaxScale t ∧
        (trackMaxScale t = 0 ∨ ∃ k ∈ t.scales,
          trackMaxScale t = k.value.x ∨ trackMaxScale t = k.value.y ∨
          trackMaxScale t = k.value.z)) := by
  obtain ⟨hL1, hL2, hL3⟩ :=
    foldl_max_spec (fun k : Keyframe Float3 => len3 k.value) t.translations 0
  have hscale_fold : t.scales ≠ [] →
      trackMaxScale t = t.scales.foldl
        (fun m k => max m (max k.value.x (max k.value.y k.value.z))) 0 := by
    intro hne
    unfold trackMaxScale
    rw [if_pos (fun h0 => hne (List.length_eq_zero.1 h0)), foldl_max3_eq]
  obtain ⟨hS1, hS2, hS3⟩ :=
    foldl_max_spec
      (fun k : Keyframe Float3 => max k.value.x (max k.value.y k.value.z)) t.scales 0
  refine ⟨?_, ?_, ?_, ?_, ?_, ?_⟩
  · intro k hk
    exact hL2 k hk
  · exact hL1
  · exact hL3
  · intro he
    unfold trackMaxScale
    rw [if_neg]
    simp [he]
  · intro k hk
    have hne : t.scales ≠ [] := by
      intro he; rw [he] at hk; simp at hk
    rw [hscale_fold hne]
    have hmax := hS2 k hk
    exact ⟨le_trans (le_max_left _ _) hmax,
      le_trans (le_trans (le_max_left _ _) (le_max_right _ _)) hmax,
      le_trans (le_trans (le_max_right _ _) (le_max_right _ _)) hmax⟩
  · intro hne
    rw [hscale_fold hne]
    refine ⟨hS1, ?_⟩
    rcases hS3 with h | ⟨k, hk, hkeq⟩
    · left; exact h
    · right
      refine ⟨k, hk, ?_⟩
      rcases max_cases k.value.x (max k.value.y k.value.z) with ⟨hm, _⟩ | ⟨hm, _⟩
      · left; rw [hkeq, hm]
      · rcases max_cases k.value.y k.value.z with ⟨hm2, _⟩ | ⟨hm2, _⟩
        · right; left; rw [hkeq, hm, hm2]
        · right; right; rw [hkeq, hm, hm2]

theorem map_nthKey_range {α : Type} [Inhabited α] (src : List (Keyframe α)) :
    (List.range src.length).map (nthKey src) = src := by
  apply List.ext_getElem
  · simp
  · intro i h1 h2
    simp only [List.getElem_map, List.getElem_range]
    rw [nthKey_eq_getElem h2]

/-- C7 counterexample: with tolerance `0` and the exactly collinear, evenly
timed translation keys `(0,(0,0,0))`, `(1/2,(1,0,0))`, `(1,(2,0,0))` —
strictly time-ordered, with strictly distinct consecutive values — `Filter`
still removes the interior keyframe, so the reduced sequence is not the
original. -/
theorem filter_tol0_removes_interior :
    Filter colTrack (CompareTranslation compareFloat3) (LerpTranslation lerpFloat3) 0
      = [⟨0, ⟨0, 0, 0⟩⟩, ⟨1, ⟨2, 0, 0⟩⟩]
    ∧ Filter colTrack (CompareTranslation compareFloat3) (LerpTranslation lerpFloat3) 0
        ≠ colTrack
    ∧ List.Chain' (fun a b : Keyframe Float3 => a.time < b.time) colTrack
    ∧ ((⟨0, 0, 0⟩ : Float3) ≠ ⟨1, 0, 0⟩) ∧ ((⟨1, 0, 0⟩ : Float3) ≠ ⟨2, 0, 0⟩) := by
  have h1 : Filter colTrack (CompareTranslation compareFloat3) (LerpTranslation lerpFloat3) 0
      = [⟨0, ⟨0, 0, 0⟩⟩, ⟨1, ⟨2, 0, 0⟩⟩] := by
    norm_num [Filter, colTrack, filterStep, innerFails, CompareTranslation,
      LerpTranslation, compareFloat3, lerpFloat3, nthKey, List.range_succ, List.range']
  refine ⟨h1, ?_, ?_, ?_, ?_⟩
  · rw [h1]
    intro h
    have hlen := congrArg List.length h
    simp [colTrack] at hlen
  · norm_num [colTrack, List.chain'_cons, List.chain'_singleton]
  · intro h
    have hx := congrArg Float3.x h
    norm_num at hx
  · intro h
    have hx := congrArg Float3.x h
    norm_num at hx

/-- C7 amended: with tolerance `0`, a comparator that at tolerance `0`
accepts exactly the equal values, and an input none of whose interior
keyframes is exactly reproduced by interpolating between any earlier
keyframe and the keyframe's immediate successor at the corresponding time
fraction, `Filter` removes no keyframe: the reduced sequence equals the
original.  (Strict distinctness of consecutive values is not sufficient:
see the collinear counterexample.) -/
theorem filter_tol0_exact (α : Type) [Inhabited α] (src : List (Keyframe α))
    (cmp : α → α → ℚ → Bool) (lerp : α → α → ℚ → α)
    (hcmp : ∀ a b : α, cmp a b 0 = true ↔ a = b)
    (hni : ∀ i, i < src.length → 0 < i → i + 1 < src.length → ∀ p, p < i →
      lerp (nthKey src p).value (nthKey src (i + 1)).value
        (((nthKey src i).time - (nthKey src p).time) /
         ((nthKey src (i + 1)).time - (nthKey src p).time)) ≠ (nthKey src i).value) :
    Filter src cmp lerp 0 = src := by
  have hstate : ∀ k, k ≤ src.length →
      (List.range k).foldl (keptStep src.length (innerFails src cmp lerp 0)) ([], 0)
        = (List.range k, k - 1) := by
    intro k
    induction k with
    | zero => intro _; rfl
    | succ k ih =>
        intro hk
        rw [keptFrom_succ, ih (by omega)]
        unfold keptStep
        by_cases hk0 : k = 0
        · subst hk0
          rw [if_pos (Or.inl rfl)]
          rfl
        · by_cases hklast : k = src.length - 1
          · rw [if_pos (Or.inr hklast), ← List.range_succ]
            rfl
          · rw [if_neg (by rintro (h | h); exact hk0 h; exact hklast h)]
            have hkn : k + 1 < src.length := by omega
            have hF : innerFails src cmp lerp 0 (k - 1) k = true := by
              unfold innerFails
              rw [List.any_eq_true]
              refine ⟨k, ?_, ?_⟩
              · rw [List.mem_range'_1]
                omega
              · show (! cmp (lerp (nthKey src (k - 1)).value (nthKey src (k + 1)).value
                    (((nthKey src k).time - (nthKey src (k - 1)).time) /
                     ((nthKey src (k + 1)).time - (nthKey src (k - 1)).time)))
                    (nthKey src k).value 0) = true
                have hcf : cmp (lerp (nthKey src (k - 1)).value (nthKey src (k + 1)).value
                    (((nthKey src k).time - (nthKey src (k - 1)).time) /
                     ((nthKey src (k + 1)).time - (nthKey src (k - 1)).time)))
                    (nthKey src k).value 0 = false := by
                  rw [← Bool.not_eq_true, hcmp]
                  exact hni k (by omega) (by omega) (by omega) (k - 1) (by omega)
                rw [hcf]
                rfl
            rw [if_pos hF, ← List.range_succ]
            rfl
  have hkept : retainedIdx src cmp lerp 0 = List.range src.length := by
    unfold retainedIdx keptIdx
    rw [hstate src.length le_rfl]
  rw [filter_eq_map_retained, hkept, map_nthKey_range]

/-- C8 counterexample: `Filter` is not idempotent.  For the scalar keys
`(0,0), (1,0), (2,5/2), (3,3)` with tolerance `1`, absolute-difference
comparator and linear interpolation, the first pass keeps keys `0, 1, 3`,
but a second pass on that output also removes key `1`. -/
theorem filter_not_idempotent :
    Filter zigzagTrack absCmpQ lerpQ 1 = [⟨0, 0⟩, ⟨1, 0⟩, ⟨3, 3⟩]
    ∧ Filter (Filter zigzagTrack absCmpQ lerpQ 1) absCmpQ lerpQ 1 = [⟨0, 0⟩, ⟨3, 3⟩]
    ∧ Filter (Filter zigzagTrack absCmpQ lerpQ 1) absCmpQ lerpQ 1
        ≠ Filter zigzagTrack absCmpQ lerpQ 1
    ∧ List.Chain' (fun a b : Keyframe ℚ => a.time < b.time) zigzagTrack := by
  have h1 : Filter zigzagTrack absCmpQ lerpQ 1 = [⟨0, 0⟩, ⟨1, 0⟩, ⟨3, 3⟩] := by
    norm_num [Filter, zigzagTrack, filterStep, innerFails, absCmpQ, lerpQ, nthKey,
      List.range_succ, List.range', abs_le]
  have h2 : Filter [(⟨0, 0⟩ : Keyframe ℚ), ⟨1, 0⟩, ⟨3, 3⟩] absCmpQ lerpQ 1
      = [⟨0, 0⟩, ⟨3, 3⟩] := by
    norm_num [Filter, filterStep, innerFails, absCmpQ, lerpQ, nthKey,
      List.range_succ, List.range', abs_le]
  refine ⟨h1, by rw [h1]; exact h2, ?_, ?_⟩
  · rw [h1, h2]
    intro h
    have hlen := congrArg List.length h
    simp at hlen
  · norm_num [zigzagTrack, List.chain'_cons, List.chain'_singleton]

/-- C8 amended: re-running `Filter` on its own output with the same
tolerance is not guaranteed to return it unchanged; what holds is that the
second pass never lengthens the sequence and preserves its first and last
keyframes and its emptiness. -/
theorem filter_refilter_bounds {α : Type} [Inhabited α] (src : List (Keyframe α))
    (cmp : α → α → ℚ → Bool) (lerp : α → α → ℚ → α) (tol : ℚ) :
    (Filter (Filter src cmp lerp tol) cmp lerp tol).length
        ≤ (Filter src cmp lerp tol).length
    ∧ (Filter (Filter src cmp lerp tol) cmp lerp tol).head?
        = (Filter src cmp lerp tol).head?
    ∧ (Filter (Filter src cmp lerp tol) cmp lerp tol).getLast?
        = (Filter src cmp lerp tol).getLast?
    ∧ (Filter (Filter src cmp lerp tol) cmp lerp tol = []
        ↔ Filter src cmp lerp tol = []) :=
  ⟨filter_length_le _ _ _ _, filter_head? _ _ _ _, filter_getLast? _ _ _ _,
    filter_eq_nil_iff _ _ _ _⟩

set_option synthInstance.maxSize 400 in
theorem chainSkeleton_wf : WellFormed chainSkeleton := by
  apply wellFormed_of_bounded <;> decide

/-- Witness for C1 at the collinear track with tolerance `0`: the retained
pair is `(0, 2)` and the interior key `1` passes the interpolation check. -/
theorem filter_decimation_safety_witness :
    keyCheck colTrack (CompareTranslation compareFloat3) (LerpTranslation lerpFloat3)
      0 0 2 1 := by
  have hr : retainedIdx colTrack (CompareTranslation compareFloat3)
      (LerpTranslation lerpFloat3) 0 = [0, 2] := by
    norm_num [retainedIdx, keptIdx, keptStep, innerFails, CompareTranslation,
      LerpTranslation, compareFloat3, lerpFloat3, nthKey, colTrack,
      List.range_succ, List.range']
  have h := (filter_decimation_safety colTrack (CompareTranslation compareFloat3)
    (LerpTranslation lerpFloat3) 0 le_rfl
    (by norm_num [colTrack, List.chain'_cons, List.chain'_singleton])).2
  exact h 0 0 2 (by rw [hr]; rfl) (by rw [hr]; rfl) 1 (by omega) (by omega)

/-- Witness for C2 at the collinear track with tolerance `0`. -/
theorem filter_output_guarantees_witness :
    (Filter colTrack (CompareTranslation compareFloat3) (LerpTranslation lerpFloat3)
        0).length ≤ colTrack.length
    ∧ List.Chain' (fun a b : Keyframe Float3 => a.time < b.time)
        (Filter colTrack (CompareTranslation compareFloat3) (LerpTranslation lerpFloat3) 0)
    ∧ (Filter colTrack (CompareTranslation compareFloat3)
        (LerpTranslation lerpFloat3) 0).head? = colTrack.head?
    ∧ (Filter colTrack (CompareTranslation compareFloat3)
        (LerpTranslation lerpFloat3) 0).getLast? = colTrack.getLast?
    ∧ (Filter colTrack (CompareTranslation compareFloat3)
        (LerpTranslation lerpFloat3) 0 = [] ↔ colTrack = []) :=
  filter_output_guarantees colTrack (CompareTranslation compareFloat3)
    (LerpTranslation lerpFloat3) 0
    (by norm_num [colTrack, List.chain'_cons, List.chain'_singleton])

/-- Witness for C3: one track against an empty skeleton fails with the
default output. -/
theorem optimize_fails_iff_witness :
    (defaultOptimizer.run compareFloat3 trivialCmpQ lerpFloat3 trivialNlerp zeroLen3
        ⟨1, [⟨[], [], []⟩]⟩ ⟨[]⟩).1 = false
    ∧ (defaultOptimizer.run compareFloat3 trivialCmpQ lerpFloat3 trivialNlerp zeroLen3
        ⟨1, [⟨[], [], []⟩]⟩ ⟨[]⟩).2 = defaultRawAnimation := by
  have h := optimize_fails_iff defaultOptimizer compareFloat3 trivialCmpQ lerpFloat3
    trivialNlerp zeroLen3 ⟨1, [⟨[], [], []⟩]⟩ ⟨[]⟩
  have hfail := h.1.mpr (Or.inr (by decide))
  exact ⟨hfail, h.2 hfail⟩

/-- Witness for C4 on the two-joint skeleton: the leaf child's reach slot
ends at `0`. -/
theorem iter_bone_reach_witness :
    (Iter chainSkeleton 0 (fun _ => ⟨1, 1⟩) (fun _ => 0)).2.2 1 = 0 := by
  have h := iter_bone_reach chainSkeleton chainSkeleton_wf 0 (by decide)
    (fun _ => ⟨1, 1⟩) (fun _ => 0) (fun i _ => rfl)
  have h2 := h.2.2.1 1 (inSub_step chainSkeleton rfl (by omega))
  rw [h2, if_pos (show (chainSkeleton.jointProperties 1).is_leaf = true from rfl)]

/-- Witness for C6: two different one-joint skeletons give identical
optimizer output on a one-track animation. -/
theorem optimize_skeleton_independent_witness :
    defaultOptimizer.run compareFloat3 trivialCmpQ lerpFloat3 trivialNlerp zeroLen3
        ⟨1, [⟨[], [], []⟩]⟩ ⟨[⟨none, true⟩]⟩
      = defaultOptimizer.run compareFloat3 trivialCmpQ lerpFloat3 trivialNlerp zeroLen3
        ⟨1, [⟨[], [], []⟩]⟩ ⟨[⟨none, false⟩]⟩ :=
  optimize_skeleton_independent defaultOptimizer compareFloat3 trivialCmpQ lerpFloat3
    trivialNlerp zeroLen3 ⟨1, [⟨[], [], []⟩]⟩ ⟨[⟨none, true⟩]⟩ ⟨[⟨none, false⟩]⟩
    (by decide) (by decide)

/-- Witness for the amended C5: a track with no scale keyframes gets local
scale `1`. -/
theorem trackLocal_pair_characterization_witness :
    trackMaxScale ⟨[], [], []⟩ = 1 :=
  (trackLocal_pair_characterization zeroLen3 ⟨[], [], []⟩).2.2.2.1 rfl

/-- Witness for the amended C7: the spike track is left unchanged by
`Filter` at tolerance `0`. -/
theorem filter_tol0_exact_witness :
    Filter spikeTrack absCmpQ lerpQ 0 = spikeTrack := by
  apply filter_tol0_exact ℚ spikeTrack absCmpQ lerpQ
  · intro a b
    unfold absCmpQ
    rw [decide_eq_true_eq]
    constructor
    · intro h
      have h2 := abs_nonneg (a - b)
      have h3 : a - b = 0 := abs_eq_zero.1 (le_antisymm h h2)
      linarith
    · intro h
      subst h
      simp
  · intro i hi h0 h1 p hp
    simp only [spikeTrack, List.length_cons, List.length_nil] at hi h1
    interval_cases i
    · interval_cases p
      · norm_num [spikeTrack, nthKey, lerpQ, List.getD_cons_zero, List.getD_cons_succ]
    · omega

/-- Witness for C9 on the two-joint skeleton: the root's accumulated total
length bounds the child's local length. -/
theorem iter_reach_monotone_witness :
    ((Iter chainSkeleton 0 (fun _ => ⟨1, 1⟩) (fun _ => 0)).2.1 1).length ≤
      (Iter chainSkeleton 0 (fun _ => ⟨1, 1⟩) (fun _ => 0)).2.2 0 +
        ((Iter chainSkeleton 0 (fun _ => ⟨1, 1⟩) (fun _ => 0)).2.1 0).length :=
  iter_reach_monotone chainSkeleton chainSkeleton_wf 0 (by decide)
    (fun _ => ⟨1, 1⟩) (fun _ => 0) (fun i _ => rfl)
    (fun i => ⟨zero_le_one, zero_le_one⟩) (fun i => le_rfl)
    1 0 (inSub_step chainSkeleton rfl (by omega)) rfl (inSub_self chainSkeleton 0)

/-- Witness for C10 on the two-joint skeleton: the scan from `j + 1` stops
in bounds at the child of the root. -/
theorem firstChild_found_witness :
    firstChildFrom chainSkeleton 0 (0 + 1) < chainSkeleton.num_joints
    ∧ (chainSkeleton.jointProperties (firstChildFrom chainSkeleton 0 (0 + 1))).parent
        = some 0 :=
  firstChild_found chainSkeleton 0 ⟨1, by omega, by decide, rfl⟩

end OzzOpt
